import Mathlib

/-!
Shallow embedding of the tight-binding `Model` class of `tbmodels/_tb_model.py`
and proofs about its construction pipeline and derived-model operations.

Numeric conventions of the embedding:
* The Python code computes with IEEE `complex` floats; the embedding uses exact
  complex-rational scalars (`CQ`) for all stored hopping data, so that every
  table operation is computable and decidable.  The two places where the code
  genuinely produces transcendental values (`hamilton`'s Bloch factors and
  `em_field`'s Peierls phases, both `np.exp` of a purely imaginary argument)
  are embedded over `ℂ` via the coercion `toC`.
* `la.norm(A) > tol` (a Frobenius norm comparison) is embedded exactly as
  `tol < 0 ∨ tol² < frobNormSq A`, which is equivalent for every real `tol`
  since the norm is the nonnegative square root of `frobNormSq`.
* Python dicts become association data: a `keys` list (iteration order =
  insertion order) together with a value function; two dicts are equal iff
  they have the same key sets and equal values at the shared keys.
-/

unseal Rat.add Rat.mul Rat.sub Rat.inv Nat.gcd

/-- The distinct raise sites of the embedded code.  The source raises plain
`ValueError` (the spec's `ConfigurationError` / `PhysicalConsistencyError`),
`KeyError` from failed dict lookups, and `TypeError` from `len()` applied to an
`int`; each site gets its own constructor. -/
inductive Err
  /-- `__init__`: empty hoppings dict and no explicit size. -/
  | sizeMissing
  /-- `__init__`: `pos` given but its length differs from `size`. -/
  | posLength
  /-- `_reduce_hoppings`: the claimed-Hermitian input fails the cc check. -/
  | physicalConsistency
  /-- A failed dict `[...]` lookup (`hop[-G]` in `_reduce_hoppings`,
  `new_hoppings[G] += ...` in `__add__`, `new_hoppings[(0,0,0)]` in
  `em_field`). -/
  | keyError
  /-- `__init__`: a stored hopping matrix is not of shape `(size, size)`. -/
  | shapeMismatch
  /-- `__add__`: occupation numbers differ (message carries both values). -/
  | occMismatch (o1 o2 : Option ℤ)
  /-- `__add__` line 188: the sizes differ, and building the error message
  evaluates `len(self.size)` on an `int`, so a `TypeError` escapes instead of
  the intended `ValueError`. -/
  | typeErrorLenInt
  /-- `__add__`: unit cells do not match. -/
  | ucMismatch
  /-- `__add__`: positions do not match. -/
  | posMismatch
  /-- `change_uc`: `la.det(uc) != 1`. -/
  | detNotOne
  /-- `em_field`: vector potential given but the unit cell is unset. -/
  | ucNotSpecified
  /-- `em_field`: unrecognized `mode_scalar`/`mode_vec` string. -/
  | badMode
  /-- `em_field`, scalar branch in absolute mode with no unit cell:
  `np.dot(None, p)` fails. -/
  | typeErrorNoneUc
  /-- `hamilton` on an empty hopping dict: `sum()` of the empty generator is
  the int `0`, and `H.conjugate().T` on it raises `AttributeError`. -/
  | attributeErrorIntT
deriving DecidableEq

/-- Complex numbers with exact rational components, standing in for Python's
`complex` scalars. -/
structure CQ where
  re : ℚ
  im : ℚ
deriving DecidableEq

instance : Zero CQ := ⟨⟨0, 0⟩⟩

instance : One CQ := ⟨⟨1, 0⟩⟩

instance : Add CQ := ⟨fun z w => ⟨z.re + w.re, z.im + w.im⟩⟩

instance : Neg CQ := ⟨fun z => ⟨-z.re, -z.im⟩⟩

instance : Sub CQ := ⟨fun z w => ⟨z.re - w.re, z.im - w.im⟩⟩

instance : Mul CQ := ⟨fun z w => ⟨z.re * w.re - z.im * w.im, z.re * w.im + z.im * w.re⟩⟩

/-- Complex conjugate. -/
def CQ.conj (z : CQ) : CQ := ⟨z.re, -z.im⟩

/-- Embedding of a real (rational) scalar. -/
def CQ.ofQ (q : ℚ) : CQ := ⟨q, 0⟩

/-- The imaginary unit. -/
def CQ.I : CQ := ⟨0, 1⟩

/-- Squared modulus, used for the Frobenius norm. -/
def CQ.normSq (z : CQ) : ℚ := z.re * z.re + z.im * z.im

/-- Sum of a list of `CQ` values (the embedding's accumulate-loop primitive). -/
def CQ.lsum (l : List CQ) : CQ := l.foldr (· + ·) 0

/-- 3-vectors of rationals: fractional atomic positions and real-space vectors. -/
abbrev V3 := ℚ × ℚ × ℚ

def V3.add (a b : V3) : V3 := (a.1 + b.1, a.2.1 + b.2.1, a.2.2 + b.2.2)

def V3.sub (a b : V3) : V3 := (a.1 - b.1, a.2.1 - b.2.1, a.2.2 - b.2.2)

/-- Euclidean dot product `np.dot` on 3-vectors. -/
def dotV (a b : V3) : ℚ := a.1 * b.1 + a.2.1 * b.2.1 + a.2.2 * b.2.2

/-- Lattice vectors: the dictionary keys `G`, integer 3-tuples. -/
abbrev GVec := ℤ × ℤ × ℤ

def negG (G : GVec) : GVec := (-G.1, -G.2.1, -G.2.2)

def gToV (G : GVec) : V3 := ((G.1 : ℚ), (G.2.1 : ℚ), (G.2.2 : ℚ))

def gAdd (G H : GVec) : GVec := (G.1 + H.1, G.2.1 + H.2.1, G.2.2 + H.2.2)

def gSub (G H : GVec) : GVec := (G.1 - H.1, G.2.1 - H.2.1, G.2.2 - H.2.2)

/-- Python's `x % 1`: the fractional part, in `[0, 1)`. -/
def fract1 (q : ℚ) : ℚ := q - ⌊q⌋

def fract1V (p : V3) : V3 := (fract1 p.1, fract1 p.2.1, fract1 p.2.2)

/-- `np.array(np.floor(p), dtype=int)`: the unit-cell offset of a position. -/
def ucOffset (p : V3) : GVec := (⌊p.1⌋, ⌊p.2.1⌋, ⌊p.2.2⌋)

/-- 3×3 rational matrices, stored as a triple of rows. -/
abbrev M3 := V3 × V3 × V3

/-- `np.dot(M, v)` for a 3×3 matrix and a 3-vector. -/
def matVec (M : M3) (v : V3) : V3 := (dotV M.1 v, dotV M.2.1 v, dotV M.2.2 v)

def idM3 : M3 := ((1, 0, 0), (0, 1, 0), (0, 0, 1))

def col0 (M : M3) : V3 := (M.1.1, M.2.1.1, M.2.2.1)

def col1 (M : M3) : V3 := (M.1.2.1, M.2.1.2.1, M.2.2.2.1)

def col2 (M : M3) : V3 := (M.1.2.2, M.2.1.2.2, M.2.2.2.2)

/-- `np.dot(A, B)` for 3×3 matrices. -/
def matMul3 (A B : M3) : M3 :=
  ((dotV A.1 (col0 B), dotV A.1 (col1 B), dotV A.1 (col2 B)),
   (dotV A.2.1 (col0 B), dotV A.2.1 (col1 B), dotV A.2.1 (col2 B)),
   (dotV A.2.2 (col0 B), dotV A.2.2 (col1 B), dotV A.2.2 (col2 B)))

/-- `la.det` of a 3×3 matrix (exact). -/
def det3 (M : M3) : ℚ :=
  M.1.1 * (M.2.1.2.1 * M.2.2.2.2 - M.2.1.2.2 * M.2.2.2.1)
  - M.1.2.1 * (M.2.1.1 * M.2.2.2.2 - M.2.1.2.2 * M.2.2.1)
  + M.1.2.2 * (M.2.1.1 * M.2.2.2.1 - M.2.1.2.1 * M.2.2.1)

def setCol0 (M : M3) (v : V3) : M3 :=
  ((v.1, M.1.2.1, M.1.2.2), (v.2.1, M.2.1.2.1, M.2.1.2.2), (v.2.2, M.2.2.2.1, M.2.2.2.2))

def setCol1 (M : M3) (v : V3) : M3 :=
  ((M.1.1, v.1, M.1.2.2), (M.2.1.1, v.2.1, M.2.1.2.2), (M.2.2.1, v.2.2, M.2.2.2.2))

def setCol2 (M : M3) (v : V3) : M3 :=
  ((M.1.1, M.1.2.1, v.1), (M.2.1.1, M.2.1.2.1, v.2.1), (M.2.2.1, M.2.2.2.1, v.2.2))

/-- `la.solve(M, v)`: the exact solution of `M · x = v` (Cramer's rule), the
embedding of SciPy's linear solve on the invertible inputs where it is used. -/
def solve3 (M : M3) (v : V3) : V3 :=
  (det3 (setCol0 M v) / det3 M, det3 (setCol1 M v) / det3 M, det3 (setCol2 M v) / det3 M)

/-- Python's `int(...)` cast of a float: truncation toward zero. -/
def truncQ (q : ℚ) : ℤ := if 0 ≤ q then ⌊q⌋ else -⌊-q⌋

def truncV (p : V3) : GVec := (truncQ p.1, truncQ p.2.1, truncQ p.2.2)

/-- `G[np.nonzero(G)[0][0]] > 0`: the first non-zero coordinate of `G` is
positive.  Only meaningful for `G ≠ (0,0,0)` (as in the source, where the code
reaches this test only behind a `G == (0,0,0)` guard). -/
def LeadPos (G : GVec) : Prop :=
  if G.1 ≠ 0 then 0 < G.1 else if G.2.1 ≠ 0 then 0 < G.2.1 else 0 < G.2.2

instance : DecidablePred LeadPos := fun G => by unfold LeadPos; infer_instance

/-- Rectangular matrices over `α`: a shape together with an entry function
(entries outside the shape are irrelevant, cf. `Mat.Eq`). -/
structure Mat (α : Type) where
  rows : ℕ
  cols : ℕ
  entry : ℕ → ℕ → α

/-- Elementwise matrix sum; as in NumPy/SciPy the operands have equal shapes at
every use site, and the result carries the left operand's shape. -/
def Mat.add (A B : Mat CQ) : Mat CQ :=
  ⟨A.rows, A.cols, fun i j => A.entry i j + B.entry i j⟩

def Mat.sub (A B : Mat CQ) : Mat CQ :=
  ⟨A.rows, A.cols, fun i j => A.entry i j - B.entry i j⟩

/-- Scalar multiple by a real (`0.5 * hop`). -/
def Mat.smulQ (q : ℚ) (A : Mat CQ) : Mat CQ :=
  ⟨A.rows, A.cols, fun i j => CQ.ofQ q * A.entry i j⟩

/-- Scalar multiple by a complex scalar (`x * hop` in `__mul__`). -/
def Mat.smulC (x : CQ) (A : Mat CQ) : Mat CQ :=
  ⟨A.rows, A.cols, fun i j => x * A.entry i j⟩

/-- `A.T.conjugate()` / `A.transpose().conjugate()`: the Hermitian conjugate. -/
def Mat.ctrans (A : Mat CQ) : Mat CQ :=
  ⟨A.cols, A.rows, fun i j => (A.entry j i).conj⟩

/-- An all-zero matrix (`np.zeros` / `sp.csr((n, m))`). -/
def Mat.zeroM (n m : ℕ) : Mat CQ := ⟨n, m, fun _ _ => 0⟩

/-- The squared Frobenius norm of the in-shape entries; `la.norm` is its
square root. -/
def Mat.frobNormSq (A : Mat CQ) : ℚ :=
  ((List.range A.rows).map (fun i =>
    ((List.range A.cols).map (fun j => (A.entry i j).normSq)).sum)).sum

/-- Matrix equality: same shape and equal in-shape entries. -/
def Mat.Eq (A B : Mat CQ) : Prop :=
  A.rows = B.rows ∧ A.cols = B.cols ∧ ∀ i < A.rows, ∀ j < A.cols, A.entry i j = B.entry i j

instance (A B : Mat CQ) : Decidable (A.Eq B) := by
  unfold Mat.Eq; infer_instance

/-- Exact embedding of the comparison `la.norm(A) > tol`: equivalent to it for
every real `tol`, because `la.norm A = sqrt (frobNormSq A) ≥ 0`. -/
def NormGt (A : Mat CQ) (tol : ℚ) : Prop := tol < 0 ∨ tol * tol < A.frobNormSq

instance (A : Mat CQ) (tol : ℚ) : Decidable (NormGt A tol) := by
  unfold NormGt; infer_instance

/-- A Python hopping dict: the insertion-ordered key list together with the
value mapping (meaningful on the listed keys only). -/
structure HT where
  keys : List GVec
  val : GVec → Mat CQ

/-- Dict equality: same key sets, equal matrices at every key. -/
def HT.Equiv (s t : HT) : Prop :=
  (∀ G ∈ s.keys, G ∈ t.keys) ∧ (∀ G ∈ t.keys, G ∈ s.keys) ∧
    ∀ G ∈ s.keys, Mat.Eq (s.val G) (t.val G)

instance (s t : HT) : Decidable (s.Equiv t) := by
  unfold HT.Equiv; infer_instance

/-- The `Model` state after a successful `__init__`. -/
structure Model where
  size : ℕ
  occ : Option ℤ
  pos : List V3
  uc : Option M3
  hoppings : HT

instance : Inhabited Model where
  default := ⟨0, none, [], none, ⟨[], fun _ => Mat.zeroM 0 0⟩⟩

/-- `self.size = size if (size is not None) else six.next(six.itervalues(hoppings)).shape[0]`
(the not-given case reads the first stored matrix; only reached when the dict
is nonempty). -/
def inferSize (hop : HT) (size : Option ℕ) : ℕ :=
  match size with
  | some n => n
  | none => (hop.val (hop.keys.headD (0, 0, 0))).rows

/-- `_map_to_uc` (lines 83-103).  Fast path: if every position's floor is zero
the input is returned unchanged.  Otherwise positions are reduced mod 1 and
every non-zero amplitude `t` at `(G, i0, i1)` is accumulated at the shifted key
`G + offset[i1] - offset[i0]`; the working matrices are
`np.zeros((size, size))`-based, so the new values carry shape `(size, size)`.
A key is present in the result iff some non-zero amplitude was moved to it. -/
def mapToUc (size : ℕ) (pos : List V3) (t : HT) : List V3 × HT :=
  if pos.all (fun p => ucOffset p = (0, 0, 0)) then (pos, t)
  else
    let offsets := pos.map ucOffset
    let shift : GVec → ℕ → ℕ → GVec := fun G i0 i1 =>
      gSub (gAdd G (offsets.getD i1 (0, 0, 0))) (offsets.getD i0 (0, 0, 0))
    let newKeys : List GVec :=
      (t.keys.flatMap (fun G =>
        (List.range (t.val G).rows).flatMap (fun i0 =>
          (List.range (t.val G).cols).filterMap (fun i1 =>
            if (t.val G).entry i0 i1 ≠ 0 then some (shift G i0 i1) else none)))).dedup
    let newVal : GVec → Mat CQ := fun K =>
      ⟨size, size, fun i0 i1 =>
        CQ.lsum (t.keys.map (fun G =>
          if i0 < (t.val G).rows ∧ i1 < (t.val G).cols ∧ (t.val G).entry i0 i1 ≠ 0 ∧
              shift G i0 i1 = K
          then (t.val G).entry i0 i1 else 0))⟩
    (pos.map fract1V, ⟨newKeys, newVal⟩)

/-- The consistency loop of `_reduce_hoppings` (lines 112-114), iterating the
dict keys in order: for each `G` the partner `hop[-G]` is looked up first (a
missing partner is a `KeyError`), then `la.norm(hop[G] - hop[-G].H) > tol`
raises the Hermiticity `ValueError`. -/
def ccCheck (t : HT) (tol : ℚ) : List GVec → Except Err Unit
  | [] => .ok ()
  | G :: rest =>
    if negG G ∈ t.keys then
      if NormGt (Mat.sub (t.val G) ((t.val (negG G)).ctrans)) tol then
        .error .physicalConsistency
      else ccCheck t tol rest
    else .error .keyError

/-- `_reduce_hoppings` (lines 105-124): run the consistency loop, then keep
`(0,0,0)` halved, keep keys with positive leading non-zero coordinate as-is,
drop the rest. -/
def reduceHoppings (t : HT) (tol : ℚ) : Except Err HT :=
  match ccCheck t tol t.keys with
  | .error e => .error e
  | .ok _ =>
    .ok ⟨t.keys.filter (fun G => decide (G = (0, 0, 0) ∨ LeadPos G)),
      fun G => if G = (0, 0, 0) then Mat.smulQ (1/2) (t.val G) else t.val G⟩

/-- `_map_hoppings_positive_G` (lines 126-142): `(0,0,0)` is stored as-is;
a key with positive leading coordinate accumulates its own matrix; a key with
negative leading coordinate accumulates its Hermitian conjugate onto `-G`.
Accumulation starts from `sp.csr((size, size))` default zeros. -/
def mapHoppingsPositiveG (size : ℕ) (t : HT) : HT :=
  ⟨(t.keys.map (fun G =>
      if G = (0, 0, 0) then G else if LeadPos G then G else negG G)).dedup,
   fun K =>
     if K = (0, 0, 0) then t.val K
     else ⟨size, size, fun i j =>
       (if K ∈ t.keys then (t.val K).entry i j else 0) +
       (if negG K ∈ t.keys then ((t.val (negG K)).ctrans).entry i j else 0)⟩⟩

/-- Default `cc_tolerance=1e-12`. -/
def ccTolDefault : ℚ := 1 / 1000000000000

/-- `Model.__init__` (lines 22-79): size determination, position
normalization, reduction/folding of the hopping table, shape check. -/
def mkModel (hop : HT) (size : Option ℕ) (occ : Option ℤ) (pos : Option (List V3))
    (uc : Option M3) (contains_cc : Bool) (cc_tolerance : ℚ) : Except Err Model :=
  if hop.keys.isEmpty ∧ size.isNone then .error .sizeMissing
  else
    let sz := inferSize hop size
    let posStep : Except Err (List V3 × HT) :=
      match pos with
      | none => .ok (List.replicate sz (0, 0, 0), hop)
      | some ps => if ps.length = sz then .ok (mapToUc sz ps hop) else .error .posLength
    match posStep with
    | .error e => .error e
    | .ok (ps, t1) =>
      let redStep : Except Err HT :=
        if contains_cc then reduceHoppings t1 cc_tolerance
        else .ok (mapHoppingsPositiveG sz t1)
      match redStep with
      | .error e => .error e
      | .ok t2 =>
        if ∀ G ∈ t2.keys, (t2.val G).rows = sz ∧ (t2.val G).cols = sz then
          .ok ⟨sz, occ, ps, uc, t2⟩
        else .error .shapeMismatch

/-- The error of a construction outcome, `none` on success. -/
def errOf : Except Err Model → Option Err
  | .error e => some e
  | .ok _ => none

/-- Whether a construction outcome is a model. -/
def isOk : Except Err Model → Bool
  | .error _ => false
  | .ok _ => true

/-- The produced model's hopping keys (empty on failure). -/
def okKeys : Except Err Model → List GVec
  | .error _ => []
  | .ok m => m.hoppings.keys

/-- The produced model's occupation (outer `none` on failure). -/
def okOcc : Except Err Model → Option (Option ℤ)
  | .error _ => none
  | .ok m => some m.occ

/-- The produced model's size (`none` on failure). -/
def okSize : Except Err Model → Option ℕ
  | .error _ => none
  | .ok m => some m.size

/-- The `1e-6` tolerance used by `__add__` for `uc` and `pos` comparison. -/
def tol6 : ℚ := 1 / 1000000

/-- No coordinate pair differs by more than the tolerance (the negation of the
mismatch loop's `abs(x1 - x2) > tolerance`). -/
def v3Close (a b : V3) : Prop :=
  |a.1 - b.1| ≤ tol6 ∧ |a.2.1 - b.2.1| ≤ tol6 ∧ |a.2.2 - b.2.2| ≤ tol6

instance (a b : V3) : Decidable (v3Close a b) := by unfold v3Close; infer_instance

/-- `__add__` lines 192-206: unit cells match iff both are `None` (identity
comparison with `None`), or both are set and agree entrywise within `1e-6`. -/
def ucMatch (u1 u2 : Option M3) : Prop :=
  match u1, u2 with
  | none, none => True
  | none, some _ => False
  | some _, none => False
  | some a, some b => v3Close a.1 b.1 ∧ v3Close a.2.1 b.2.1 ∧ v3Close a.2.2 b.2.2

instance : (u1 u2 : Option M3) → Decidable (ucMatch u1 u2)
  | none, none => .isTrue trivial
  | none, some _ => .isFalse (fun h => h)
  | some _, none => .isFalse (fun h => h)
  | some _, some _ => by unfold ucMatch; infer_instance

/-- `__add__` lines 209-217: positions match iff every zipped pair agrees
within `1e-6` per coordinate. -/
def posMatch (p1 p2 : List V3) : Prop :=
  ∀ q ∈ p1.zip p2, v3Close q.1 q.2

instance (p1 p2 : List V3) : Decidable (posMatch p1 p2) := by
  unfold posMatch; infer_instance

/-- `Model.__add__` (lines 177-232).  The checks run in source order.  The
union loop `new_hoppings[G] += hop_mat` operates on a plain (deep-copied)
`dict`, so a key of the right operand that the left operand lacks raises
`KeyError`; and the size-mismatch message evaluates `len()` on `int`s, so that
branch raises `TypeError` rather than the intended `ValueError`. -/
def addModels (m1 m2 : Model) : Except Err Model :=
  if m1.occ ≠ m2.occ then .error (.occMismatch m1.occ m2.occ)
  else if m1.size ≠ m2.size then .error .typeErrorLenInt
  else if ¬ ucMatch m1.uc m2.uc then .error .ucMismatch
  else if ¬ posMatch m1.pos m2.pos then .error .posMismatch
  else if ∀ G ∈ m2.hoppings.keys, G ∈ m1.hoppings.keys then
    mkModel
      ⟨m1.hoppings.keys, fun K =>
        if K ∈ m2.hoppings.keys then Mat.add (m1.hoppings.val K) (m2.hoppings.val K)
        else m1.hoppings.val K⟩
      none m1.occ (some m1.pos) m1.uc false ccTolDefault
  else .error .keyError

/-- `1 / x` on complex scalars (`1. / x` in `__div__`). -/
def CQ.inv (z : CQ) : CQ := ⟨z.re / z.normSq, -z.im / z.normSq⟩

/-- `Model.__mul__` (lines 247-261): scale every hopping matrix by `x`. -/
def mulModel (x : CQ) (m : Model) : Except Err Model :=
  mkModel ⟨m.hoppings.keys, fun G => Mat.smulC x (m.hoppings.val G)⟩
    none m.occ (some m.pos) m.uc false ccTolDefault

/-- `Model.__neg__`: `-1 * self`. -/
def negModel (m : Model) : Except Err Model := mulModel ⟨-1, 0⟩ m

/-- `Model.__sub__`: `self + (-model)`. -/
def subModels (m1 m2 : Model) : Except Err Model :=
  match negModel m2 with
  | .error e => .error e
  | .ok n => addModels m1 n

/-- `Model.__div__`: `self * (1. / x)`. -/
def divModel (m : Model) (x : CQ) : Except Err Model := mulModel (CQ.inv x) m

/-- `Model.trs` (lines 356-374): double occupation and positions; each hopping
matrix becomes the `2N×2N` block-diagonal matrix with the original in the
upper-left block and its (element-wise) complex conjugate in the lower-right. -/
def trs (m : Model) : Except Err Model :=
  let newHop : HT :=
    ⟨m.hoppings.keys, fun G =>
      ⟨2 * m.size, 2 * m.size, fun i j =>
        (if i < m.size ∧ j < m.size then (m.hoppings.val G).entry i j else 0) +
        (if m.size ≤ i ∧ m.size ≤ j then
          ((m.hoppings.val G).entry (i - m.size) (j - m.size)).conj else 0)⟩⟩
  mkModel newHop none (m.occ.map (fun o => o * 2)) (some (m.pos ++ m.pos)) m.uc
    false ccTolDefault

/-- `Model.change_uc` (lines 376-395): reject `det ≠ 1`; otherwise transform
`uc`, positions and keys by `la.solve`, with keys cast to `int` (truncation).
The dict comprehension keeps, for colliding images, the value of the last
source key in iteration order. -/
def changeUc (m : Model) (uc : M3) : Except Err Model :=
  if det3 uc ≠ 1 then .error .detNotOne
  else
    let keyMap : GVec → GVec := fun G => truncV (solve3 uc (gToV G))
    let newHop : HT :=
      ⟨(m.hoppings.keys.map keyMap).dedup,
       fun K =>
         match m.hoppings.keys.reverse.find? (fun G => decide (keyMap G = K)) with
         | some G => m.hoppings.val G
         | none => Mat.zeroM 0 0⟩
    mkModel newHop none m.occ (some (m.pos.map (fun p => solve3 uc p)))
      (m.uc.map (fun u => matMul3 u uc)) false ccTolDefault

/-- `_pos_to_idx` (lines 473-478): x-major flattening of a unit-cell
coordinate (callers stay in bounds, so the `IndexError` guard is never hit). -/
def posToIdx (pos : GVec) (dim : ℕ × ℕ × ℕ) : ℤ :=
  (pos.1 * (dim.2.1 : ℤ) + pos.2.1) * (dim.2.2 : ℤ) + pos.2.2

/-- `full_idx` inside `supercell` (lines 314-319). -/
def fullIdx (size : ℕ) (dim : ℕ × ℕ × ℕ) (ucPos : GVec) (orb : ℕ) : ℤ :=
  posToIdx ucPos dim * (size : ℤ) + (orb : ℤ)

/-- The triple loop `for i: for j: for k:` over the supercell's unit cells. -/
def cellList (dim : ℕ × ℕ × ℕ) : List (ℕ × ℕ × ℕ) :=
  (List.range dim.1).flatMap (fun i =>
    (List.range dim.2.1).flatMap (fun j =>
      (List.range dim.2.2).map (fun k => (i, j, k))))

def cellG (c : ℕ × ℕ × ℕ) : GVec := ((c.1 : ℤ), (c.2.1 : ℤ), (c.2.2 : ℤ))

def cellV (c : ℕ × ℕ × ℕ) : V3 := ((c.1 : ℚ), (c.2.1 : ℚ), (c.2.2 : ℚ))

/-- Componentwise `v / dim`. -/
def divDim (v : V3) (dim : ℕ × ℕ × ℕ) : V3 :=
  (v.1 / (dim.1 : ℚ), v.2.1 / (dim.2.1 : ℚ), v.2.2 / (dim.2.2 : ℚ))

/-- `(p < 0) or (p >= d)` for one coordinate of `full_uc1_pos`. -/
def outsideSc (p : ℤ) (d : ℕ) : Prop := p < 0 ∨ (d : ℤ) ≤ p

instance (p : ℤ) (d : ℕ) : Decidable (outsideSc p d) := by unfold outsideSc; infer_instance

/-- `cut_hop = any(not per and outside ...)` (line 335). -/
def cutHop (periodic : Bool × Bool × Bool) (fp : GVec) (dim : ℕ × ℕ × ℕ) : Prop :=
  (periodic.1 = false ∧ outsideSc fp.1 dim.1) ∨
  (periodic.2.1 = false ∧ outsideSc fp.2.1 dim.2.1) ∨
  (periodic.2.2 = false ∧ outsideSc fp.2.2 dim.2.2)

instance (periodic : Bool × Bool × Bool) (fp : GVec) (dim : ℕ × ℕ × ℕ) :
    Decidable (cutHop periodic fp dim) := by unfold cutHop; infer_instance

/-- `np.array(np.floor(full_uc1_pos / dim), dtype=int)` for positive `dim`:
floor division, componentwise. -/
def scNewG (fp : GVec) (dim : ℕ × ℕ × ℕ) : GVec :=
  (fp.1.ediv dim.1, fp.2.1.ediv dim.2.1, fp.2.2.ediv dim.2.2)

/-- `full_uc1_pos % dim` for positive `dim`: the nonnegative remainder. -/
def scModCell (fp : GVec) (dim : ℕ × ℕ × ℕ) : GVec :=
  (fp.1.emod dim.1, fp.2.1.emod dim.2.1, fp.2.2.emod dim.2.2)

/-- `_edge_detect_pos` (lines 480-489): `[bottom, top]` flags per axis. -/
abbrev EdgeInfo := (Bool × Bool) × (Bool × Bool) × (Bool × Bool)

def edgeDetectPos (c : ℕ × ℕ × ℕ) (dim : ℕ × ℕ × ℕ) : EdgeInfo :=
  ((decide (c.1 = 0), decide (c.1 = dim.1 - 1)),
   (decide (c.2.1 = 0), decide (c.2.1 = dim.2.1 - 1)),
   (decide (c.2.2 = 0), decide (c.2.2 = dim.2.2 - 1)))

/-- The hopping-accumulation loops of `supercell` (lines 321-344), rendered
entrywise: entry `(I, J)` of the matrix stored at key `K` receives `t` from
every source term `(G, i0, i1)` and source cell `uc0` that is not cut, whose
destination supercell vector is `K`, and whose flattened indices are `(I, J)`. -/
def scHopEntry (m : Model) (dim : ℕ × ℕ × ℕ) (periodic : Bool × Bool × Bool)
    (K : GVec) (I J : ℕ) : CQ :=
  CQ.lsum ((cellList dim).flatMap (fun c =>
    m.hoppings.keys.flatMap (fun G =>
      (List.range (m.hoppings.val G).rows).flatMap (fun i0 =>
        (List.range (m.hoppings.val G).cols).map (fun i1 =>
          let fp := gAdd (cellG c) G
          if ¬ cutHop periodic fp dim ∧ scNewG fp dim = K ∧
              fullIdx m.size dim (cellG c) i0 = (I : ℤ) ∧
              fullIdx m.size dim (scModCell fp dim) i1 = (J : ℤ)
          then (m.hoppings.val G).entry i0 i1 else 0)))))

/-- The passivation loop of `supercell` (lines 346-353): each sub-cell's
on-site block receives `0.5 ·` the passivation vector on its diagonal. -/
def scPassEntry (m : Model) (dim : ℕ × ℕ × ℕ) (passiv : EdgeInfo → ℕ → ℚ)
    (K : GVec) (I J : ℕ) : CQ :=
  if K = (0, 0, 0) ∧ I = J then
    CQ.lsum ((cellList dim).map (fun c =>
      let idx := (c.1 * dim.2.1 * dim.2.2 + c.2.1 * dim.2.2 + c.2.2) * m.size
      if idx ≤ I ∧ I < idx + m.size then
        CQ.ofQ (passiv (edgeDetectPos c dim) (I - idx) * (1/2)) else 0))
  else 0

/-- The keys the `supercell` loops touch: every uncut `(uc0, G)` pair touches
its destination key (for any matrix with a nonempty shape, because the access
`new_hoppings[new_G][...] += t` runs for every entry `t`, zero or not), and
the passivation loop always touches `(0,0,0)`. -/
def scKeys (m : Model) (dim : ℕ × ℕ × ℕ) (periodic : Bool × Bool × Bool) : List GVec :=
  (((cellList dim).flatMap (fun c =>
      m.hoppings.keys.filterMap (fun G =>
        let fp := gAdd (cellG c) G
        if (m.hoppings.val G).rows ≠ 0 ∧ (m.hoppings.val G).cols ≠ 0 ∧
            ¬ cutHop periodic fp dim
        then some (scNewG fp dim) else none))) ++ [(0, 0, 0)]).dedup

/-- `new_occ = None if self.occ is None else sum(dim) * self.occ`
(line 293): the occupation scales by the SUM of the dimensions. -/
def scOcc (m : Model) (dim : ℕ × ℕ × ℕ) : Option ℤ :=
  m.occ.map (fun o => ((dim.1 + dim.2.1 + dim.2.2 : ℕ) : ℤ) * o)

/-- `new_uc = self.uc * dim` (line 297): NumPy broadcasting scales column `j`
by `dim[j]`. -/
def scUc (m : Model) (dim : ℕ × ℕ × ℕ) : Option M3 :=
  m.uc.map (fun u =>
    ((u.1.1 * (dim.1 : ℚ), u.1.2.1 * (dim.2.1 : ℚ), u.1.2.2 * (dim.2.2 : ℚ)),
     (u.2.1.1 * (dim.1 : ℚ), u.2.1.2.1 * (dim.2.1 : ℚ), u.2.1.2.2 * (dim.2.2 : ℚ)),
     (u.2.2.1 * (dim.1 : ℚ), u.2.2.2.1 * (dim.2.1 : ℚ), u.2.2.2.2 * (dim.2.2 : ℚ))))

/-- `new_size = self.size * nx * ny * nz` (line 311). -/
def scSize (m : Model) (dim : ℕ × ℕ × ℕ) : ℕ :=
  m.size * (dim.1 * dim.2.1 * dim.2.2)

/-- The supercell positions (lines 300-307): for every sub-cell in loop
order, the original positions rescaled by `1/dim` and offset by the
sub-cell's reduced coordinate. -/
def scPos (m : Model) (dim : ℕ × ℕ × ℕ) : List V3 :=
  (cellList dim).flatMap (fun c =>
    m.pos.map (fun p => V3.add (divDim (cellV c) dim) (divDim p dim)))

/-- The assembled supercell hopping dict (all working matrices are
`np.zeros((new_size, new_size))`-based). -/
def scTable (m : Model) (dim : ℕ × ℕ × ℕ) (periodic : Bool × Bool × Bool)
    (passiv : EdgeInfo → ℕ → ℚ) : HT :=
  ⟨scKeys m dim periodic, fun K =>
    ⟨scSize m dim, scSize m dim, fun I J =>
      scHopEntry m dim periodic K I J + scPassEntry m dim passiv K I J⟩⟩

/-- `Model.supercell` (lines 277-354).  Note line 293: the occupation scales
by `sum(dim)`, not by the product. -/
def supercell (m : Model) (dim : ℕ × ℕ × ℕ) (periodic : Bool × Bool × Bool)
    (passiv : EdgeInfo → ℕ → ℚ) : Except Err Model :=
  mkModel (scTable m dim periodic passiv) none (scOcc m dim) (some (scPos m dim))
    (scUc m dim) false ccTolDefault

/-- The scalar-potential branch of `em_field` (lines 437-445), acting on the
deep copy `new_hoppings`.  For each orbital `i` the statement
`new_hoppings[(0,0,0)][i,i] += 0.5 * prefactor_scalar * scalar_pot(p)` runs,
with `p` either the fractional position (relative mode) or `np.dot(uc, p)`
(absolute mode).  Error order per iteration: an unrecognized mode raises
before any lookup; then the dict lookup of `(0,0,0)` (the assignment target)
fails before the right-hand side is evaluated; then `np.dot(None, p)` fails. -/
def emScalarTable (m : Model) (phi : V3 → ℚ) (ps : ℚ) (modeScalar : String) :
    Except Err HT :=
  if m.pos.isEmpty then .ok m.hoppings
  else if modeScalar ≠ "relative" ∧ modeScalar ≠ "absolute" then .error .badMode
  else if (0, 0, 0) ∉ m.hoppings.keys then .error .keyError
  else if modeScalar = "absolute" ∧ m.uc.isNone then .error .typeErrorNoneUc
  else
    .ok ⟨m.hoppings.keys, fun K =>
      if K = (0, 0, 0) then
        ⟨(m.hoppings.val K).rows, (m.hoppings.val K).cols, fun i j =>
          (m.hoppings.val K).entry i j +
            (if i = j ∧ i < m.pos.length then
              CQ.ofQ ((1/2) * ps * phi
                (if modeScalar = "relative" then m.pos.getD i (0, 0, 0)
                 else matVec (m.uc.getD idM3) (m.pos.getD i (0, 0, 0))))
            else 0)⟩
      else m.hoppings.val K⟩

/-- `r0` / `r1` of the vector-potential loop: `np.dot(self.uc, p)` for the
position of an orbital (only called with the unit cell present). -/
def emVecR (m : Model) (i : ℕ) : V3 :=
  matVec (m.uc.getD idM3) (m.pos.getD i (0, 0, 0))

/-- `A0` / `A1` of the loop: the vector potential evaluated at the position
projected into the home unit cell (`p % 1`), absolute or relative. -/
def emVecA (m : Model) (A : V3 → V3) (modeVec : String) (i : ℕ) : V3 :=
  if modeVec = "absolute" then A (matVec (m.uc.getD idM3) (fract1V (m.pos.getD i (0, 0, 0))))
  else A (fract1V (m.pos.getD i (0, 0, 0)))

/-- The Peierls exponent `np.dot(G + r1 - r0, A1 - A0)` computed by the
vector-potential loop of `em_field` (lines 452-468) for the entry at
`(G, i0, i1)`.  Lines 454-455 read `p0 = self.pos[i0]` and
`p1 = self.pos[i0]` — both endpoints from orbital `i0` — so `i1` is never
consulted and the function takes only `i0`: `r1, A1` are the very same
expressions as `r0, A0`. -/
def emDotArg (m : Model) (A : V3 → V3) (modeVec : String) (G : GVec) (i0 : ℕ) : ℚ :=
  dotV (V3.add (gToV G) (V3.sub (emVecR m i0) (emVecR m i0)))
    (V3.sub (emVecA m A modeVec i0) (emVecA m A modeVec i0))

/-- Whether some stored matrix has a non-zero in-shape entry (`.nonzero()`
yields something); with no non-zero entries the vector-potential loop body
never runs, so an invalid `mode_vec` cannot raise. -/
def hasNonzero (t : HT) : Prop :=
  ∃ G ∈ t.keys, ∃ i < (t.val G).rows, ∃ j < (t.val G).cols, (t.val G).entry i j ≠ 0

instance (t : HT) : Decidable (hasNonzero t) := by unfold hasNonzero; infer_instance

/-- The exact complex value of an embedded scalar. -/
noncomputable def toC (z : CQ) : ℂ := ⟨(z.re : ℝ), (z.im : ℝ)⟩

/-- A hopping table with complex-valued matrices (the codomain of the
transcendental operations). -/
structure HTC where
  keys : List GVec
  val : GVec → Mat ℂ

noncomputable def complexifyMat (A : Mat CQ) : Mat ℂ :=
  ⟨A.rows, A.cols, fun i j => toC (A.entry i j)⟩

noncomputable def complexifyHT (t : HT) : HTC :=
  ⟨t.keys, fun G => complexifyMat (t.val G)⟩

/-- Complex-matrix equality: same shape, equal in-shape entries. -/
def CMat.Eq (A B : Mat ℂ) : Prop :=
  A.rows = B.rows ∧ A.cols = B.cols ∧ ∀ i < A.rows, ∀ j < A.cols, A.entry i j = B.entry i j

/-- Complex-table equality: same key sets, `CMat.Eq` values at every key. -/
def HTC.Equiv (s t : HTC) : Prop :=
  (∀ G ∈ s.keys, G ∈ t.keys) ∧ (∀ G ∈ t.keys, G ∈ s.keys) ∧
    ∀ G ∈ s.keys, CMat.Eq (s.val G) (t.val G)

/-- The contents of the SOURCE model's `self.hoppings` after `em_field`
returns (or raises).  The vector-potential loop (lines 452-468) iterates over
`self.hoppings` — not over the deep copy — and multiplies each non-zero entry
in place by `np.exp(-1j * prefactor_vec * np.dot(G + r1 - r0, A1 - A0))`;
when no multiplication happens (no vector potential, no unit cell, or an
unrecognized mode, which raises at the first non-zero entry before any
multiplication) the table is unchanged. -/
noncomputable def emFieldSourceAfter (m : Model) (vecPot : Option (V3 → V3))
    (pv : ℚ) (modeVec : String) : HTC :=
  match vecPot, m.uc with
  | some A, some _ =>
    if modeVec = "relative" ∨ modeVec = "absolute" then
      ⟨m.hoppings.keys, fun G =>
        ⟨(m.hoppings.val G).rows, (m.hoppings.val G).cols, fun i0 i1 =>
          if (m.hoppings.val G).entry i0 i1 ≠ 0 then
            toC ((m.hoppings.val G).entry i0 i1) *
              Complex.exp (-Complex.I * (pv : ℂ) * ((emDotArg m A modeVec G i0 : ℚ) : ℂ))
          else toC ((m.hoppings.val G).entry i0 i1)⟩⟩
    else complexifyHT m.hoppings
  | _, _ => complexifyHT m.hoppings

/-- `Model.em_field` (lines 397-470): the value returned (or the error
raised).  The returned model is constructed from the deep copy
`new_hoppings`, which only the scalar-potential branch modifies; the
vector-potential loop's in-place phase multiplications hit the source table
(see `emFieldSourceAfter`) and never reach `new_hoppings`. -/
def emField (m : Model) (scalarPot : Option (V3 → ℚ)) (vecPot : Option (V3 → V3))
    (ps _pv : ℚ) (modeScalar modeVec : String) : Except Err Model :=
  let afterScalar : Except Err HT :=
    match scalarPot with
    | none => .ok m.hoppings
    | some phi => emScalarTable m phi ps modeScalar
  match afterScalar with
  | .error e => .error e
  | .ok t =>
    match vecPot with
    | none => mkModel t none m.occ (some m.pos) m.uc false ccTolDefault
    | some _ =>
      if m.uc.isNone then .error .ucNotSpecified
      else if modeVec = "relative" ∨ modeVec = "absolute" ∨ ¬ hasNonzero m.hoppings then
        mkModel t none m.occ (some m.pos) m.uc false ccTolDefault
      else .error .badMode

/-- The entrywise value of the summands
`np.array(hop) * np.exp(2j * np.pi * np.dot(G, k))` of `Model.hamilton`
(line 155), added over the canonically stored keys: the matrix that
`sum(...)` produces whenever the hopping dict is nonempty. -/
noncomputable def blochSum (m : Model) (k : ℝ × ℝ × ℝ) : Mat ℂ :=
  ⟨m.size, m.size, fun i j =>
    (m.hoppings.keys.map (fun G =>
      toC ((m.hoppings.val G).entry i j) *
        Complex.exp (2 * Complex.I * (Real.pi : ℂ) *
          ((G.1 : ℝ) * k.1 + (G.2.1 : ℝ) * k.2.1 + (G.2.2 : ℝ) * k.2.2 : ℝ)))).sum⟩

/-- `H = sum(...)` of `Model.hamilton` (line 155).  Python's `sum` starts
from the int `0`, so over an EMPTY hopping dict the result is the int `0`,
not a matrix (`none` here); over a nonempty dict it is the summed Bloch
matrix. -/
noncomputable def hamiltonSum (m : Model) (k : ℝ × ℝ × ℝ) : Option (Mat ℂ) :=
  if m.hoppings.keys.isEmpty then none else some (blochSum m k)

/-- `Model.hamilton` (lines 145-157): `H += H.conjugate().T`, then return
`np.array(H)`.  When the hopping dict is empty, `H` is the int `0` and `.T`
on `(0).conjugate()` raises `AttributeError` — no matrix is returned. -/
noncomputable def hamilton (m : Model) (k : ℝ × ℝ × ℝ) : Except Err (Mat ℂ) :=
  match hamiltonSum m k with
  | none => .error .attributeErrorIntT
  | some S => .ok ⟨S.rows, S.cols, fun i j =>
      S.entry i j + starRingEnd ℂ (S.entry j i)⟩

/-- The C4 counterexample input: a valid model (built by `__init__` from an
empty hoppings dict plus an explicit `size=2`) with no hopping terms. -/
def c4empty : Model :=
  ⟨2, none, [(0, 0, 0), (0, 0, 0)], none, ⟨[], fun _ => Mat.zeroM 2 2⟩⟩

/-- The C4 witness input: one orbital, one canonical stored hopping. -/
def c4wit : Model :=
  ⟨1, none, [(0, 0, 0)], none, ⟨[(1, 0, 0)], fun _ => ⟨1, 1, fun _ _ => CQ.I⟩⟩⟩

/-- A valid model state: every state reachable through a successful
`__init__` satisfies this (positions normalized to the home cell and matching
`size`; hopping keys unique, canonical — `(0,0,0)` or positive leading
coordinate, no `±G` pair — and every stored matrix of shape
`(size, size)`). -/
def Model.Valid (m : Model) : Prop :=
  m.pos.length = m.size ∧
  (∀ p ∈ m.pos, ucOffset p = (0, 0, 0)) ∧
  m.hoppings.keys.Nodup ∧
  (∀ G ∈ m.hoppings.keys, G = (0, 0, 0) ∨ LeadPos G) ∧
  (∀ G ∈ m.hoppings.keys, ∀ H ∈ m.hoppings.keys, H = negG G → H = G) ∧
  ∀ G ∈ m.hoppings.keys,
    (m.hoppings.val G).rows = m.size ∧ (m.hoppings.val G).cols = m.size

instance (m : Model) : Decidable m.Valid := by unfold Model.Valid; infer_instance

/-- Model equality: equal `size`, `occ`, `pos`, `uc` and equal hopping
tables. -/
def Model.Equiv (a b : Model) : Prop :=
  a.size = b.size ∧ a.occ = b.occ ∧ a.pos = b.pos ∧ a.uc = b.uc ∧
    a.hoppings.Equiv b.hoppings

instance (a b : Model) : Decidable (a.Equiv b) := by unfold Model.Equiv; infer_instance

/-- A construction outcome is a model equal (as a value) to `b`. -/
def okEquiv (r : Except Err Model) (b : Model) : Prop :=
  match r with
  | .ok m => m.Equiv b
  | .error _ => False

instance (r : Except Err Model) (b : Model) : Decidable (okEquiv r b) :=
  match r with
  | .ok _ => by unfold okEquiv; infer_instance
  | .error _ => by unfold okEquiv; infer_instance

/-- Arguments that pass the position stage untouched: no positions, or
positions of the right length already inside the home unit cell (the
`_map_to_uc` fast path). -/
def PosArgOK (hop : HT) (size : Option ℕ) (pos : Option (List V3)) : Prop :=
  match pos with
  | none => True
  | some ps => ps.length = inferSize hop size ∧ ∀ p ∈ ps, ucOffset p = (0, 0, 0)

instance : (hop : HT) → (size : Option ℕ) → (pos : Option (List V3)) →
    Decidable (PosArgOK hop size pos)
  | _, _, none => .isTrue trivial
  | hop, size, some ps => by unfold PosArgOK; infer_instance

def c5tab : HT := ⟨[(0, 0, 0)], fun _ => ⟨1, 1, fun _ _ => CQ.I⟩⟩

def c5tabOk : HT := ⟨[(0, 0, 0)], fun _ => ⟨1, 1, fun _ _ => 1⟩⟩

def c10tab : HT := ⟨[(1, 0, 0)], fun _ => ⟨1, 1, fun _ _ => 1⟩⟩

def c8tab : HT := ⟨[(0, 0, 0), (-1, 2, 0)], fun _ => ⟨1, 1, fun _ _ => 1⟩⟩

/-- The stored matrix entry of a successful construction outcome. -/
def okEntry (r : Except Err Model) (G : GVec) (i j : ℕ) : Option CQ :=
  match r with
  | .ok m => some ((m.hoppings.val G).entry i j)
  | .error _ => none

/-- The Peierls factor as the specification states it (relative mode): the
hopping at `(G, i0, i1)` is multiplied by
`exp(-i · prefactor_vec · (G + r1 - r0)·(A(r1) - A(r0)))` with `r0` the
position of orbital `i0` and `r1` the position of orbital `i1` — the two
DISTINCT endpoints of the hopping.  It reuses the code's endpoint helpers
`emVecR` / `emVecA` but feeds them the two different orbital indices, unlike
`emDotArg` which reads both from `i0`. -/
noncomputable def peierlsPhaseSpec (m : Model) (A : V3 → V3) (pv : ℚ)
    (G : GVec) (i0 i1 : ℕ) : ℂ :=
  Complex.exp (-Complex.I * (pv : ℂ) *
    ((dotV (V3.add (gToV G) (V3.sub (emVecR m i1) (emVecR m i0)))
      (V3.sub (emVecA m A "relative" i1) (emVecA m A "relative" i0)) : ℚ) : ℂ))

/-- The C2 failing input: two orbitals at fractional positions `(0,0,0)` and
`(1/2,0,0)`, identity unit cell, a single stored hopping `t = 1` at
`(G=(0,0,0), i0=0, i1=1)`. -/
def c2model : Model :=
  ⟨2, none, [(0, 0, 0), (1/2, 0, 0)], some idM3,
   ⟨[(0, 0, 0)], fun _ => ⟨2, 2, fun i j => if i = 0 ∧ j = 1 then 1 else 0⟩⟩⟩

/-- The vector potential of the failing input: `A(r) = r`. -/
def c2A : V3 → V3 := fun r => r

/-- C6 failing inputs: three valid one- and two-orbital models that agree on
`occ`, `uc` and `pos` wherever required. -/
def c6left : Model :=
  ⟨1, none, [(0, 0, 0)], none, ⟨[(0, 0, 0)], fun _ => ⟨1, 1, fun _ _ => 1⟩⟩⟩

def c6right : Model :=
  ⟨1, none, [(0, 0, 0)], none, ⟨[(1, 0, 0)], fun _ => ⟨1, 1, fun _ _ => 1⟩⟩⟩

def c6big : Model :=
  ⟨2, none, [(0, 0, 0), (0, 0, 0)], none, ⟨[(0, 0, 0)], fun _ => ⟨2, 2, fun _ _ => 1⟩⟩⟩

/-- C3 witness input: one orbital, `occ = 3`, a single canonical hopping. -/
def c3model : Model :=
  ⟨1, some 3, [(0, 0, 0)], none, ⟨[(1, 0, 0)], fun _ => ⟨1, 1, fun _ _ => 1⟩⟩⟩

/-- The C9 counterexample input: a valid model (built by `__init__` from an
empty hoppings dict plus an explicit `size=2`) with no hopping terms. -/
def c9empty : Model :=
  ⟨2, none, [(0, 0, 0), (0, 0, 0)], none, ⟨[], fun _ => Mat.zeroM 2 2⟩⟩

def c9model : Model :=
  ⟨1, some 2, [(0, 0, 0)], some idM3,
   ⟨[(1, 0, 0)], fun _ => ⟨1, 1, fun _ _ => CQ.I⟩⟩⟩

def c9badUc : M3 := ((2, 0, 0), (0, 1, 0), (0, 0, 1))

/-- The fully expanded (non-reduced) table of a canonically stored model, as
the C7 claim describes it: every stored key `G` kept (the `(0,0,0)` block
un-halved by adding its own conjugate transpose), and for `G ≠ 0` the partner
`-G` reinstated with the conjugate-transposed matrix. -/
def expandTable (t : HT) : HT :=
  ⟨t.keys.flatMap (fun G => if G = (0, 0, 0) then [G] else [G, negG G]),
   fun K =>
     if K ∈ t.keys then
       (if K = (0, 0, 0) then Mat.add (t.val K) ((t.val K).ctrans) else t.val K)
     else (t.val (negG K)).ctrans⟩

/-- C7's round trip: constructing a new `Model` from the expanded table (with
the model's own `size`, `pos`, `occ`, `uc` and `contains_cc=True`) succeeds
and reproduces the identical canonical hopping table. -/
def reconKeeps (m : Model) : Prop :=
  match mkModel (expandTable m.hoppings) (some m.size) m.occ (some m.pos) m.uc
      true ccTolDefault with
  | .ok m' => HT.Equiv m'.hoppings m.hoppings
  | .error _ => False

instance (m : Model) : Decidable (reconKeeps m) :=
  match h : mkModel (expandTable m.hoppings) (some m.size) m.occ (some m.pos) m.uc
      true ccTolDefault with
  | .ok m' => by unfold reconKeeps; rw [h]; infer_instance
  | .error e => by unfold reconKeeps; rw [h]; exact instDecidableFalse

/-- The C7 counterexample: a valid model (built with `contains_cc=False`)
whose stored `(0,0,0)` block `[[i]]` is not Hermitian. -/
def c7cexM : Model :=
  ⟨1, none, [(0, 0, 0)], none, ⟨[(0, 0, 0)], fun _ => ⟨1, 1, fun _ _ => CQ.I⟩⟩⟩

/-- C7 witness input: a valid model with a Hermitian on-site block `[[2]]`
and one canonical off-cell hopping `[[i]]` at `(1,0,0)`. -/
def c7wit : Model :=
  ⟨1, none, [(0, 0, 0)], none,
   ⟨[(0, 0, 0), (1, 0, 0)],
    fun G => if G = (0, 0, 0) then ⟨1, 1, fun _ _ => CQ.ofQ 2⟩
             else ⟨1, 1, fun _ _ => CQ.I⟩⟩⟩

@[simp] lemma CQ.re_zero : (0 : CQ).re = 0 := rfl

@[simp] lemma CQ.im_zero : (0 : CQ).im = 0 := rfl

@[simp] lemma CQ.re_one : (1 : CQ).re = 1 := rfl

@[simp] lemma CQ.im_one : (1 : CQ).im = 0 := rfl

@[simp] lemma CQ.re_add (z w : CQ) : (z + w).re = z.re + w.re := rfl

@[simp] lemma CQ.im_add (z w : CQ) : (z + w).im = z.im + w.im := rfl

@[simp] lemma CQ.re_sub (z w : CQ) : (z - w).re = z.re - w.re := rfl

@[simp] lemma CQ.im_sub (z w : CQ) : (z - w).im = z.im - w.im := rfl

@[simp] lemma CQ.re_mul (z w : CQ) : (z * w).re = z.re * w.re - z.im * w.im := rfl

@[simp] lemma CQ.im_mul (z w : CQ) : (z * w).im = z.re * w.im + z.im * w.re := rfl

@[simp] lemma CQ.re_conj (z : CQ) : z.conj.re = z.re := rfl

@[simp] lemma CQ.im_conj (z : CQ) : z.conj.im = -z.im := rfl

lemma CQ.ext_iff {z w : CQ} : z = w ↔ z.re = w.re ∧ z.im = w.im := by
  constructor
  · rintro rfl; exact ⟨rfl, rfl⟩
  · rintro ⟨h1, h2⟩; cases z; cases w; simp_all

lemma CQ.conj_conj (z : CQ) : z.conj.conj = z := by
  cases z; simp [CQ.conj]

lemma CQ.add_zero' (z : CQ) : z + 0 = z := by
  rw [CQ.ext_iff]; simp

lemma CQ.zero_add' (z : CQ) : (0 : CQ) + z = z := by
  rw [CQ.ext_iff]; simp

lemma CQ.mul_one' (z : CQ) : z * 1 = z := by
  rw [CQ.ext_iff]; simp

@[simp] lemma negG_negG (G : GVec) : negG (negG G) = G := by
  cases G with
  | mk a bc => cases bc; simp [negG]

@[simp] lemma negG_zero : negG (0, 0, 0) = (0, 0, 0) := rfl

lemma leadPos_neg {G : GVec} (h : G ≠ (0, 0, 0)) : LeadPos (negG G) ↔ ¬ LeadPos G := by
  obtain ⟨a, b, c⟩ := G
  by_cases ha : a = 0
  · by_cases hb : b = 0
    · have hc : c ≠ 0 := by
        intro hc; exact h (by simp [ha, hb, hc])
      subst ha; subst hb
      simp only [LeadPos, negG]
      constructor
      · intro h1 h2; split_ifs at h1 h2 <;> omega
      · intro h1; split_ifs at h1 ⊢ <;> omega
    · subst ha
      simp only [LeadPos, negG]
      constructor
      · intro h1 h2; split_ifs at h1 h2 <;> omega
      · intro h1; split_ifs at h1 ⊢ <;> omega
  · simp only [LeadPos, negG]
    constructor
    · intro h1 h2; split_ifs at h1 h2 <;> omega
    · intro h1; split_ifs at h1 ⊢ <;> omega

lemma matEqRefl (A : Mat CQ) : A.Eq A := ⟨rfl, rfl, fun _ _ _ _ => rfl⟩

lemma mapToUc_fast {size : ℕ} {pos : List V3} {t : HT}
    (h : ∀ p ∈ pos, ucOffset p = (0, 0, 0)) :
    mapToUc size pos t = (pos, t) := by
  unfold mapToUc
  rw [if_pos]
  rw [List.all_eq_true]
  intro p hp
  simpa using h p hp

lemma ccCheck_ok {t : HT} {tol : ℚ} {l : List GVec}
    (h : ∀ G ∈ l, negG G ∈ t.keys ∧
      ¬ NormGt (Mat.sub (t.val G) ((t.val (negG G)).ctrans)) tol) :
    ccCheck t tol l = .ok () := by
  induction l with
  | nil => rfl
  | cons a rest ih =>
    obtain ⟨h1, h2⟩ := h a (List.mem_cons_self a rest)
    unfold ccCheck
    rw [if_pos h1, if_neg h2]
    exact ih (fun G hG => h G (List.mem_cons_of_mem a hG))

lemma ccCheck_viol {t : HT} {tol : ℚ} {l : List GVec}
    (hcl : ∀ G ∈ l, negG G ∈ t.keys)
    (hex : ∃ G ∈ l, NormGt (Mat.sub (t.val G) ((t.val (negG G)).ctrans)) tol) :
    ccCheck t tol l = .error .physicalConsistency := by
  induction l with
  | nil => simp at hex
  | cons a rest ih =>
    unfold ccCheck
    rw [if_pos (hcl a (List.mem_cons_self a rest))]
    by_cases hv : NormGt (Mat.sub (t.val a) ((t.val (negG a)).ctrans)) tol
    · rw [if_pos hv]
    · rw [if_neg hv]
      apply ih (fun G hG => hcl G (List.mem_cons_of_mem a hG))
      obtain ⟨G, hG, hGv⟩ := hex
      rcases List.mem_cons.mp hG with rfl | hG'
      · exact absurd hGv hv
      · exact ⟨G, hG', hGv⟩

lemma ccCheck_missing {t : HT} {tol : ℚ} {l : List GVec}
    (hnov : ∀ G ∈ l, negG G ∈ t.keys →
      ¬ NormGt (Mat.sub (t.val G) ((t.val (negG G)).ctrans)) tol)
    (hex : ∃ G ∈ l, negG G ∉ t.keys) :
    ccCheck t tol l = .error .keyError := by
  induction l with
  | nil => simp at hex
  | cons a rest ih =>
    unfold ccCheck
    by_cases hm : negG a ∈ t.keys
    · rw [if_pos hm, if_neg (hnov a (List.mem_cons_self a rest) hm)]
      apply ih (fun G hG => hnov G (List.mem_cons_of_mem a hG))
      obtain ⟨G, hG, hGm⟩ := hex
      rcases List.mem_cons.mp hG with rfl | hG'
      · exact absurd hm hGm
      · exact ⟨G, hG', hGm⟩
    · rw [if_neg hm]

lemma ccCheck_ok_closed {t : HT} {tol : ℚ} {l : List GVec}
    (h : ccCheck t tol l = .ok ()) : ∀ G ∈ l, negG G ∈ t.keys := by
  induction l with
  | nil => intro G hG; simp at hG
  | cons a rest ih =>
    intro G hG
    unfold ccCheck at h
    by_cases hm : negG a ∈ t.keys
    · rw [if_pos hm] at h
      by_cases hv : NormGt (Mat.sub (t.val a) ((t.val (negG a)).ctrans)) tol
      · rw [if_pos hv] at h; cases h
      · rw [if_neg hv] at h
        rcases List.mem_cons.mp hG with rfl | hG'
        · exact hm
        · exact ih h G hG'
    · rw [if_neg hm] at h; cases h

lemma mkModel_cc_true_eq {hop : HT} {size : Option ℕ} {occ : Option ℤ}
    {pos : Option (List V3)} {uc : Option M3} {tol : ℚ}
    (hpos : PosArgOK hop size pos)
    (hne : ¬(hop.keys.isEmpty = true ∧ size.isNone = true)) :
    mkModel hop size occ pos uc true tol =
      match reduceHoppings hop tol with
      | .error e => .error e
      | .ok t2 =>
        if ∀ G ∈ t2.keys, (t2.val G).rows = inferSize hop size ∧
            (t2.val G).cols = inferSize hop size
        then .ok ⟨inferSize hop size, occ,
          (match pos with
           | none => List.replicate (inferSize hop size) (0, 0, 0)
           | some ps => ps), uc, t2⟩
        else .error .shapeMismatch := by
  unfold mkModel
  rw [if_neg hne]
  cases pos with
  | none => rfl
  | some ps =>
    obtain ⟨hlen, hin⟩ := hpos
    simp only [if_pos hlen, mapToUc_fast hin, if_true]

lemma mkModel_cc_false_eq {hop : HT} {size : Option ℕ} {occ : Option ℤ}
    {pos : Option (List V3)} {uc : Option M3} {tol : ℚ}
    (hpos : PosArgOK hop size pos)
    (hne : ¬(hop.keys.isEmpty = true ∧ size.isNone = true)) :
    mkModel hop size occ pos uc false tol =
      (if ∀ G ∈ (mapHoppingsPositiveG (inferSize hop size) hop).keys,
          ((mapHoppingsPositiveG (inferSize hop size) hop).val G).rows = inferSize hop size ∧
          ((mapHoppingsPositiveG (inferSize hop size) hop).val G).cols = inferSize hop size
       then .ok ⟨inferSize hop size, occ,
         (match pos with
          | none => List.replicate (inferSize hop size) (0, 0, 0)
          | some ps => ps), uc, mapHoppingsPositiveG (inferSize hop size) hop⟩
       else .error .shapeMismatch) := by
  unfold mkModel
  rw [if_neg hne]
  cases pos with
  | none => rfl
  | some ps =>
    obtain ⟨hlen, hin⟩ := hpos
    simp only [if_pos hlen, mapToUc_fast hin, Bool.false_eq_true, if_false]

/-- C5: for a construction call with `contains_cc=True` whose (normalized)
hopping table is closed under key negation, the build fails with the
physical-consistency error exactly when some stored pair violates
`H(G) = H(-G)^†` beyond `cc_tolerance`; when every pair satisfies the bound
the consistency check passes, i.e. construction never reports the
physical-consistency error. -/
theorem c5_contains_cc_check
    (hop : HT) (size : Option ℕ) (occ : Option ℤ) (pos : Option (List V3))
    (uc : Option M3) (tol : ℚ)
    (hpos : PosArgOK hop size pos)
    (hclosed : ∀ G ∈ hop.keys, negG G ∈ hop.keys) :
    ((∃ G ∈ hop.keys, NormGt (Mat.sub (hop.val G) ((hop.val (negG G)).ctrans)) tol) →
      mkModel hop size occ pos uc true tol = .error .physicalConsistency) ∧
    ((∀ G ∈ hop.keys, ¬ NormGt (Mat.sub (hop.val G) ((hop.val (negG G)).ctrans)) tol) →
      mkModel hop size occ pos uc true tol ≠ .error .physicalConsistency) := by
  constructor
  · intro hex
    have hne : ¬(hop.keys.isEmpty = true ∧ size.isNone = true) := by
      rintro ⟨h1, _⟩
      rw [List.isEmpty_iff] at h1
      obtain ⟨G, hG, _⟩ := hex
      rw [h1] at hG
      simp at hG
    rw [mkModel_cc_true_eq hpos hne]
    unfold reduceHoppings
    rw [ccCheck_viol hclosed hex]
  · intro hall
    by_cases hemp : hop.keys.isEmpty = true ∧ size.isNone = true
    · unfold mkModel
      rw [if_pos hemp]
      simp
    · rw [mkModel_cc_true_eq hpos hemp]
      unfold reduceHoppings
      rw [ccCheck_ok (fun G hG => ⟨hclosed G hG, hall G hG⟩)]
      dsimp only
      split <;> simp

theorem c5_contains_cc_check_witness :
    mkModel c5tab none none none none true ccTolDefault = .error .physicalConsistency ∧
    mkModel c5tabOk none none none none true ccTolDefault ≠ .error .physicalConsistency :=
  ⟨(c5_contains_cc_check c5tab none none none none ccTolDefault trivial (by decide)).1
      ⟨(0, 0, 0), by decide, by decide⟩,
   (c5_contains_cc_check c5tabOk none none none none ccTolDefault trivial (by decide)).2
      (by decide)⟩

/-- C10: with `contains_cc=True`, a key whose negation is absent makes the
consistency loop's `hop[-G]` lookup fail with a `KeyError` before any
Hermiticity verdict (stated here for tables where no earlier pair already
fails the Hermiticity bound, which would abort the loop first); consequently a
successful construction requires the key set to be closed under negation. -/
theorem c10_key_closure
    (hop : HT) (size : Option ℕ) (occ : Option ℤ) (pos : Option (List V3))
    (uc : Option M3) (tol : ℚ)
    (hpos : PosArgOK hop size pos) :
    (((∃ G ∈ hop.keys, negG G ∉ hop.keys) ∧
      (∀ G ∈ hop.keys, negG G ∈ hop.keys →
        ¬ NormGt (Mat.sub (hop.val G) ((hop.val (negG G)).ctrans)) tol)) →
      mkModel hop size occ pos uc true tol = .error .keyError) ∧
    (isOk (mkModel hop size occ pos uc true tol) = true →
      ∀ G ∈ hop.keys, negG G ∈ hop.keys) := by
  constructor
  · rintro ⟨hex, hnov⟩
    have hne : ¬(hop.keys.isEmpty = true ∧ size.isNone = true) := by
      rintro ⟨h1, _⟩
      rw [List.isEmpty_iff] at h1
      obtain ⟨G, hG, _⟩ := hex
      rw [h1] at hG
      simp at hG
    rw [mkModel_cc_true_eq hpos hne]
    unfold reduceHoppings
    rw [ccCheck_missing hnov hex]
  · intro hok G hG
    by_cases hemp : hop.keys.isEmpty = true ∧ size.isNone = true
    · unfold mkModel at hok
      rw [if_pos hemp] at hok
      simp [isOk] at hok
    · rw [mkModel_cc_true_eq hpos hemp] at hok
      cases hcc : ccCheck hop tol hop.keys with
      | error e =>
        unfold reduceHoppings at hok
        rw [hcc] at hok
        simp [isOk] at hok
      | ok u =>
        cases u
        exact ccCheck_ok_closed hcc G hG

theorem c10_key_closure_witness :
    mkModel c10tab none none none none true ccTolDefault = .error .keyError :=
  (c10_key_closure c10tab none none none none ccTolDefault trivial).1
    ⟨⟨(1, 0, 0), by decide, by decide⟩, by decide⟩

lemma leadPos_not_zero : ¬ LeadPos (0, 0, 0) := by decide

lemma negG_eq_zero_iff {G : GVec} : negG G = (0, 0, 0) ↔ G = (0, 0, 0) := by
  obtain ⟨a, b, c⟩ := G
  simp only [negG, Prod.ext_iff]
  omega

lemma reduce_keys_canonical {t : HT} {tol : ℚ} {t2 : HT}
    (h : reduceHoppings t tol = .ok t2) :
    ∀ G ∈ t2.keys, G = (0, 0, 0) ∨ LeadPos G := by
  unfold reduceHoppings at h
  cases hcc : ccCheck t tol t.keys with
  | error e => rw [hcc] at h; cases h
  | ok u =>
    rw [hcc] at h
    injection h with h
    subst h
    intro G hG
    simp only [List.mem_filter] at hG
    exact of_decide_eq_true hG.2

lemma mapPositive_keys_canonical (sz : ℕ) (t : HT) :
    ∀ G ∈ (mapHoppingsPositiveG sz t).keys, G = (0, 0, 0) ∨ LeadPos G := by
  intro G hG
  unfold mapHoppingsPositiveG at hG
  simp only [List.mem_dedup, List.mem_map] at hG
  obtain ⟨H, hH, rfl⟩ := hG
  by_cases h0 : H = (0, 0, 0)
  · left; simp [h0]
  · rw [if_neg h0]
    by_cases hl : LeadPos H
    · right; rwa [if_pos hl]
    · right; rw [if_neg hl]
      exact (leadPos_neg h0).mpr hl

lemma canonical_noNegPair {l : List GVec}
    (hc : ∀ G ∈ l, G = (0, 0, 0) ∨ LeadPos G) :
    ∀ G ∈ l, ∀ H ∈ l, H = negG G → H = G := by
  intro G hG H hH hHG
  rcases hc G hG with rfl | hgl
  · simpa using hHG
  · have hG0 : G ≠ (0, 0, 0) := fun h => leadPos_not_zero (h ▸ hgl)
    rcases hc H hH with h0 | hhl
    · have hng : negG G = (0, 0, 0) := by rw [← hHG, h0]
      exact absurd (negG_eq_zero_iff.mp hng) hG0
    · rw [hHG] at hhl
      exact absurd hgl ((leadPos_neg hG0).mp hhl)

lemma mkModel_ok_hoppings {hop : HT} {size : Option ℕ} {occ : Option ℤ}
    {pos : Option (List V3)} {uc : Option M3} {cc : Bool} {tol : ℚ} {m : Model}
    (h : mkModel hop size occ pos uc cc tol = .ok m) :
    (∃ t1 tol2, reduceHoppings t1 tol2 = .ok m.hoppings) ∨
    (∃ sz t1, m.hoppings = mapHoppingsPositiveG sz t1) := by
  unfold mkModel at h
  split at h
  · cases h
  · cases pos with
    | none =>
      dsimp only at h
      cases cc with
      | true =>
        rw [if_pos rfl] at h
        cases hred : reduceHoppings hop tol with
        | error e => rw [hred] at h; cases h
        | ok t2 =>
          rw [hred] at h
          dsimp only at h
          split at h
          · injection h with h; subst h
            exact Or.inl ⟨hop, tol, hred⟩
          · cases h
      | false =>
        simp only [Bool.false_eq_true, if_false] at h
        split at h
        · injection h with h; subst h
          exact Or.inr ⟨inferSize hop size, hop, rfl⟩
        · cases h
    | some ps =>
      dsimp only at h
      by_cases hlen : ps.length = inferSize hop size
      · rw [if_pos hlen] at h
        rcases hmt : mapToUc (inferSize hop size) ps hop with ⟨ps', t1⟩
        rw [hmt] at h
        dsimp only at h
        cases cc with
        | true =>
          rw [if_pos rfl] at h
          cases hred : reduceHoppings t1 tol with
          | error e => rw [hred] at h; cases h
          | ok t2 =>
            rw [hred] at h
            dsimp only at h
            split at h
            · injection h with h; subst h
              exact Or.inl ⟨t1, tol, hred⟩
            · cases h
        | false =>
          simp only [Bool.false_eq_true, if_false] at h
          split at h
          · injection h with h; subst h
            exact Or.inr ⟨inferSize hop size, t1, rfl⟩
          · cases h
      · rw [if_neg hlen] at h
        cases h

/-- C8: every model produced by construction — and hence by every derived
operation, all of which re-enter the constructor — satisfies the
canonical-storage invariant: each stored key is `(0,0,0)` or has a positive
first non-zero coordinate, and no two stored keys are negations of each
other. -/
theorem c8_canonical_storage
    (hop : HT) (size : Option ℕ) (occ : Option ℤ) (pos : Option (List V3))
    (uc : Option M3) (cc : Bool) (tol : ℚ) :
    ∀ G ∈ okKeys (mkModel hop size occ pos uc cc tol),
      (G = (0, 0, 0) ∨ LeadPos G) ∧
      ∀ H ∈ okKeys (mkModel hop size occ pos uc cc tol), H = negG G → H = G := by
  cases hm : mkModel hop size occ pos uc cc tol with
  | error e => intro G hG; simp [okKeys] at hG
  | ok m =>
    have hcanon : ∀ G ∈ m.hoppings.keys, G = (0, 0, 0) ∨ LeadPos G := by
      rcases mkModel_ok_hoppings hm with ⟨t1, tol2, hred⟩ | ⟨sz, t1, heq⟩
      · exact reduce_keys_canonical hred
      · rw [heq]; exact mapPositive_keys_canonical sz t1
    intro G hG
    simp only [okKeys] at hG ⊢
    exact ⟨hcanon G hG, fun H hH => canonical_noNegPair hcanon G hG H hH⟩

theorem c8_canonical_storage_witness :
    (1, -2, 0) ∈ okKeys (mkModel c8tab none none none none false ccTolDefault) ∧
    ((1, -2, 0) = ((0, 0, 0) : GVec) ∨ LeadPos (1, -2, 0)) :=
  ⟨by decide,
   (c8_canonical_storage c8tab none none none none false ccTolDefault
      (1, -2, 0) (by decide)).1⟩

/-- C4, counterexample to the claim as stated: on the valid empty-table
model (constructible as `Model({}, size=2)`), `hamilton` returns no matrix at
all — `sum()` of the empty generator is the int `0` and
`H.conjugate().T` on it raises `AttributeError` — so `hamilton(k)` neither
equals the claimed sum nor is Hermitian there. -/
theorem c4_hamilton_empty_cex :
    c4empty.Valid ∧ hamilton c4empty (0, 0, 0) = .error .attributeErrorIntT :=
  ⟨by decide, rfl⟩

/-- C4 (amended: a matrix is returned only for a nonempty hopping table, as
forced by `c4_hamilton_empty_cex`; on an empty table `hamilton` raises): for
every model with at least one stored key and every `k`, `hamilton(k)` returns
the Bloch sum over the canonically stored keys plus the conjugate transpose
of that sum — an `N×N` matrix that is Hermitian — and in the embedding it is
a pure function of the model state and `k`. -/
theorem c4_hamilton_hermitian (m : Model) (k : ℝ × ℝ × ℝ)
    (hne : m.hoppings.keys ≠ []) :
    hamiltonSum m k = some (blochSum m k) ∧
    hamilton m k = .ok ⟨(blochSum m k).rows, (blochSum m k).cols, fun i j =>
      (blochSum m k).entry i j + starRingEnd ℂ ((blochSum m k).entry j i)⟩ ∧
    ((blochSum m k).rows = m.size ∧ (blochSum m k).cols = m.size) ∧
    ∀ H, hamilton m k = .ok H →
      ∀ i j, starRingEnd ℂ (H.entry i j) = H.entry j i := by
  have hempty : m.hoppings.keys.isEmpty = false := by
    cases h : m.hoppings.keys with
    | nil => exact absurd h hne
    | cons a t => rfl
  have hsum : hamiltonSum m k = some (blochSum m k) := by
    unfold hamiltonSum
    rw [hempty]
    rfl
  refine ⟨hsum, ?_, ⟨rfl, rfl⟩, ?_⟩
  · unfold hamilton
    rw [hsum]
  · intro H hH i j
    unfold hamilton at hH
    rw [hsum] at hH
    injection hH with hH
    subst hH
    show starRingEnd ℂ ((blochSum m k).entry i j + starRingEnd ℂ ((blochSum m k).entry j i)) =
      (blochSum m k).entry j i + starRingEnd ℂ ((blochSum m k).entry i j)
    rw [map_add, Complex.conj_conj, add_comm]

theorem c4_hamilton_hermitian_witness :
    hamiltonSum c4wit (0, 0, 0) = some (blochSum c4wit (0, 0, 0)) ∧
    hamilton c4wit (0, 0, 0) = .ok ⟨(blochSum c4wit (0, 0, 0)).rows,
      (blochSum c4wit (0, 0, 0)).cols, fun i j =>
      (blochSum c4wit (0, 0, 0)).entry i j +
        starRingEnd ℂ ((blochSum c4wit (0, 0, 0)).entry j i)⟩ ∧
    ((blochSum c4wit (0, 0, 0)).rows = c4wit.size ∧
      (blochSum c4wit (0, 0, 0)).cols = c4wit.size) ∧
    ∀ H, hamilton c4wit (0, 0, 0) = .ok H →
      ∀ i j, starRingEnd ℂ (H.entry i j) = H.entry j i :=
  c4_hamilton_hermitian c4wit (0, 0, 0) (by decide)

lemma CmatEqRefl (A : Mat ℂ) : CMat.Eq A A := ⟨rfl, rfl, fun _ _ _ _ => rfl⟩

lemma htcEquivRefl (t : HTC) : t.Equiv t :=
  ⟨fun _ hG => hG, fun _ hG => hG, fun G _ => CmatEqRefl (t.val G)⟩

/-- C1: no derived-model operation changes the source model's state.  In the
embedding every operation except `em_field` only reads `self` (they are pure
functions of the source model), and the one in-place mutation in the source —
the vector-potential loop of `em_field` multiplying `self.hoppings` entries —
multiplies by `exp(-i·pv·(G+r1-r0)·(A1-A0))` where `r1 = r0` and `A1 = A0`
(both endpoints are read from orbital `i0`), i.e. by `exp(0) = 1`: the table
the source model holds after the call is entrywise equal to the one it held
before, on every key and for any vector potential, prefactor and mode. -/
theorem c1_source_state_unchanged (m : Model) (vecPot : Option (V3 → V3))
    (pv : ℚ) (modeVec : String) :
    HTC.Equiv (emFieldSourceAfter m vecPot pv modeVec) (complexifyHT m.hoppings) := by
  unfold emFieldSourceAfter
  cases vecPot with
  | none => exact htcEquivRefl _
  | some A =>
    cases huc : m.uc with
    | none => exact htcEquivRefl _
    | some U =>
      dsimp only
      by_cases hmode : modeVec = "relative" ∨ modeVec = "absolute"
      · rw [if_pos hmode]
        refine ⟨fun G hG => hG, fun G hG => hG, fun G _ => ⟨rfl, rfl, fun i _ j _ => ?_⟩⟩
        dsimp only
        by_cases hz : (m.hoppings.val G).entry i j ≠ 0
        · rw [if_pos hz]
          have harg : emDotArg m A modeVec G i = 0 := by
            unfold emDotArg
            have hA : V3.sub (emVecA m A modeVec i) (emVecA m A modeVec i) =
                ((0 : ℚ), (0 : ℚ), (0 : ℚ)) := by
              simp [V3.sub]
            rw [hA]
            simp [dotV]
          rw [harg]
          simp [complexifyHT, complexifyMat, Complex.exp_zero]
        · rw [if_neg hz]
          rfl
      · rw [if_neg hmode]
        exact htcEquivRefl _

/-- C2 (code bug): with `vec_pot = A`, `prefactor_vec = 1`, relative mode, the
model `em_field` returns still stores the UNCHANGED amplitude `1` at
`(G=(0,0,0), 0, 1)` — the loop computes its phase from `p1 = self.pos[i0]`
(line 455) so the factor is `exp(0) = 1`, and it moreover multiplies the
source table rather than the returned copy — whereas the factor claimed by
the specification, read at the two distinct endpoints, is
`exp(-i/4) ≠ 1`. -/
theorem c2_peierls_phase_bug :
    okEntry (emField c2model none (some c2A) 1 1 "relative" "relative") (0, 0, 0) 0 1 =
      some 1 ∧
    peierlsPhaseSpec c2model c2A 1 (0, 0, 0) 0 1 ≠ 1 := by
  constructor
  · decide
  · have hdot : dotV (V3.add (gToV (0, 0, 0)) (V3.sub (emVecR c2model 1) (emVecR c2model 0)))
        (V3.sub (emVecA c2model c2A "relative" 1) (emVecA c2model c2A "relative" 0)) =
        1/4 := by decide
    unfold peierlsPhaseSpec
    rw [hdot]
    intro h
    rw [Complex.exp_eq_one_iff] at h
    obtain ⟨n, hn⟩ := h
    have him := congrArg Complex.im hn
    push_cast at him
    simp [Complex.mul_im, Complex.mul_re] at him
    have h2pi : (0 : ℝ) < 2 * Real.pi := by positivity
    have hpi3 : (3 : ℝ) < Real.pi := Real.pi_gt_three
    rcases lt_trichotomy n 0 with hneg | rfl | hpos
    · have hn1 : (n : ℝ) ≤ -1 := by exact_mod_cast Int.le_sub_one_of_lt hneg
      nlinarith
    · norm_num at him
    · have hn1 : (1 : ℝ) ≤ (n : ℝ) := by exact_mod_cast hpos
      nlinarith

/-- C6 (code bug): `__add__` does not implement the claimed behavior on two
fronts.  (1) With `occ`, `size`, `uc` and `pos` all matching, a key of the
right operand that the left operand lacks makes `new_hoppings[G] += hop_mat`
(line 224) raise `KeyError` on the plain deep-copied dict instead of building
the union table.  (2) When the sizes differ, the error message's
`len(self.size)` (line 188) applies `len` to an `int`, so a `TypeError`
escapes instead of the claimed `ConfigurationError` reporting both sizes.
When the right key set is contained in the left one, the summing path does
succeed (third conjunct). -/
theorem c6_add_union_bug :
    (c6left.Valid ∧ c6right.Valid ∧ c6big.Valid) ∧
    errOf (addModels c6left c6right) = some .keyError ∧
    errOf (addModels c6left c6big) = some .typeErrorLenInt ∧
    errOf (addModels c6left c6left) = none := by
  refine ⟨by decide, by decide, by decide, by decide⟩

lemma sum_map_const {α : Type} (l : List α) (c : ℕ) :
    (l.map (fun _ => c)).sum = l.length * c := by
  induction l with
  | nil => simp
  | cons a t ih => simp [ih, Nat.succ_mul, Nat.add_comm]

lemma length_flatMap_const {α β : Type} (l : List α) (f : α → List β) (s : ℕ)
    (h : ∀ a ∈ l, (f a).length = s) : (l.flatMap f).length = l.length * s := by
  induction l with
  | nil => simp
  | cons a t ih =>
    rw [List.flatMap_cons, List.length_append, h a (List.mem_cons_self a t),
      ih (fun x hx => h x (List.mem_cons_of_mem a hx))]
    simp [Nat.succ_mul, Nat.add_comm]

lemma cellList_length (dim : ℕ × ℕ × ℕ) :
    (cellList dim).length = dim.1 * (dim.2.1 * dim.2.2) := by
  unfold cellList
  rw [length_flatMap_const _ _ (dim.2.1 * dim.2.2) (fun i _ => ?_), List.length_range]
  rw [length_flatMap_const _ _ dim.2.2 (fun j _ => by simp), List.length_range]

lemma cellList_mem {dim : ℕ × ℕ × ℕ} {c : ℕ × ℕ × ℕ} (h : c ∈ cellList dim) :
    c.1 < dim.1 ∧ c.2.1 < dim.2.1 ∧ c.2.2 < dim.2.2 := by
  unfold cellList at h
  simp only [List.mem_flatMap, List.mem_map, List.mem_range] at h
  obtain ⟨i, hi, j, hj, k, hk, rfl⟩ := h
  exact ⟨hi, hj, hk⟩

lemma floor_offset_zero {c : ℕ} {q : ℚ} {d : ℕ} (hd : 1 ≤ d) (hc : c < d)
    (hq : ⌊q⌋ = 0) : ⌊(c : ℚ) / (d : ℚ) + q / (d : ℚ)⌋ = 0 := by
  have hq' := Int.floor_eq_zero_iff.mp hq
  have hq0 : (0 : ℚ) ≤ q := hq'.1
  have hq1 : q < 1 := hq'.2
  have hd0 : (0 : ℚ) < (d : ℚ) := by exact_mod_cast hd
  rw [Int.floor_eq_zero_iff]
  constructor
  · positivity
  · rw [div_add_div_same, div_lt_one hd0]
    have hcd : (c : ℚ) + 1 ≤ (d : ℚ) := by exact_mod_cast hc
    linarith

lemma scPos_length (m : Model) (dim : ℕ × ℕ × ℕ) :
    (scPos m dim).length = (dim.1 * (dim.2.1 * dim.2.2)) * m.pos.length := by
  unfold scPos
  rw [length_flatMap_const _ _ m.pos.length (fun c _ => by simp), cellList_length]

lemma scPos_in_cell {m : Model} {dim : ℕ × ℕ × ℕ}
    (hpos : ∀ p ∈ m.pos, ucOffset p = (0, 0, 0))
    (h1 : 1 ≤ dim.1) (h2 : 1 ≤ dim.2.1) (h3 : 1 ≤ dim.2.2) :
    ∀ p ∈ scPos m dim, ucOffset p = (0, 0, 0) := by
  intro p hp
  unfold scPos at hp
  simp only [List.mem_flatMap, List.mem_map] at hp
  obtain ⟨c, hc, q, hq, rfl⟩ := hp
  obtain ⟨hc1, hc2, hc3⟩ := cellList_mem hc
  have hoff := hpos q hq
  unfold ucOffset at hoff ⊢
  simp only [Prod.mk.injEq] at hoff
  unfold V3.add divDim cellV
  simp only [Prod.mk.injEq]
  exact ⟨floor_offset_zero h1 hc1 hoff.1,
    floor_offset_zero h2 hc2 hoff.2.1,
    floor_offset_zero h3 hc3 hoff.2.2⟩

lemma scKeys_zero_mem (m : Model) (dim : ℕ × ℕ × ℕ) (periodic : Bool × Bool × Bool) :
    (0, 0, 0) ∈ scKeys m dim periodic := by
  unfold scKeys
  rw [List.mem_dedup]
  exact List.mem_append_right _ (List.mem_singleton_self _)

/-- C3: for dimensions `(nx, ny, nz) ≥ 1`, `supercell` succeeds on every
valid model and produces occupation `(nx+ny+nz) · occ` (the source's
`sum(dim) * occ`, unset when `occ` is unset) and orbital count
`size · nx · ny · nz`. -/
theorem c3_supercell_occ_size (m : Model) (dim : ℕ × ℕ × ℕ)
    (periodic : Bool × Bool × Bool) (passiv : EdgeInfo → ℕ → ℚ)
    (hv : m.Valid) (h1 : 1 ≤ dim.1) (h2 : 1 ≤ dim.2.1) (h3 : 1 ≤ dim.2.2) :
    isOk (supercell m dim periodic passiv) = true ∧
    okOcc (supercell m dim periodic passiv) =
      some (m.occ.map (fun o => ((dim.1 + dim.2.1 + dim.2.2 : ℕ) : ℤ) * o)) ∧
    okSize (supercell m dim periodic passiv) =
      some (m.size * (dim.1 * dim.2.1 * dim.2.2)) := by
  obtain ⟨hlen, hincell, _⟩ := hv
  have hinfer : inferSize (scTable m dim periodic passiv) none = scSize m dim := rfl
  have hposok : PosArgOK (scTable m dim periodic passiv) none (some (scPos m dim)) := by
    refine ⟨?_, scPos_in_cell hincell h1 h2 h3⟩
    rw [hinfer, scPos_length, hlen]
    unfold scSize
    ring
  have hne : ¬((scTable m dim periodic passiv).keys.isEmpty = true ∧
      (none : Option ℕ).isNone = true) := by
    rintro ⟨hk, _⟩
    rw [List.isEmpty_iff] at hk
    have h00 : (0, 0, 0) ∈ (scTable m dim periodic passiv).keys :=
      scKeys_zero_mem m dim periodic
    rw [hk] at h00
    simp at h00
  have hshape : ∀ G ∈ (mapHoppingsPositiveG
      (inferSize (scTable m dim periodic passiv) none) (scTable m dim periodic passiv)).keys,
      ((mapHoppingsPositiveG (inferSize (scTable m dim periodic passiv) none)
        (scTable m dim periodic passiv)).val G).rows =
        inferSize (scTable m dim periodic passiv) none ∧
      ((mapHoppingsPositiveG (inferSize (scTable m dim periodic passiv) none)
        (scTable m dim periodic passiv)).val G).cols =
        inferSize (scTable m dim periodic passiv) none := by
    intro G _
    unfold mapHoppingsPositiveG
    dsimp only
    split
    · exact ⟨rfl, rfl⟩
    · exact ⟨rfl, rfl⟩
  unfold supercell
  rw [mkModel_cc_false_eq hposok hne, if_pos hshape]
  exact ⟨rfl, rfl, rfl⟩

theorem c3_supercell_occ_size_witness :
    isOk (supercell c3model (1, 1, 2) (true, true, true) (fun _ _ => 0)) = true ∧
    okOcc (supercell c3model (1, 1, 2) (true, true, true) (fun _ _ => 0)) =
      some (some 12) ∧
    okSize (supercell c3model (1, 1, 2) (true, true, true) (fun _ _ => 0)) = some 2 := by
  have h := c3_supercell_occ_size c3model (1, 1, 2) (true, true, true) (fun _ _ => 0)
    (by decide) (by decide) (by decide) (by decide)
  exact ⟨h.1, by rw [h.2.1]; decide, by rw [h.2.2]; decide⟩

lemma matEqTrans {A B C : Mat CQ} (h1 : A.Eq B) (h2 : B.Eq C) : A.Eq C := by
  obtain ⟨hr1, hc1, he1⟩ := h1
  obtain ⟨hr2, hc2, he2⟩ := h2
  refine ⟨hr1.trans hr2, hc1.trans hc2, fun i hi j hj => ?_⟩
  rw [he1 i hi j hj, he2 i (hr1 ▸ hi) j (hc1 ▸ hj)]

lemma htEquivTrans {s t u : HT} (h1 : s.Equiv t) (h2 : t.Equiv u) : s.Equiv u := by
  obtain ⟨hst, hts, hv1⟩ := h1
  obtain ⟨htu, hut, hv2⟩ := h2
  exact ⟨fun G hG => htu G (hst G hG), fun G hG => hts G (hut G hG),
    fun G hG => matEqTrans (hv1 G hG) (hv2 G (hst G hG))⟩

lemma mapPositive_canonical_equiv {sz : ℕ} {t : HT}
    (hnodup : t.keys.Nodup)
    (hc : ∀ G ∈ t.keys, G = (0, 0, 0) ∨ LeadPos G)
    (hshape : ∀ G ∈ t.keys, (t.val G).rows = sz ∧ (t.val G).cols = sz) :
    HT.Equiv (mapHoppingsPositiveG sz t) t := by
  have hrep : ∀ G ∈ t.keys,
      (if G = (0, 0, 0) then G else if LeadPos G then G else negG G) = G := by
    intro G hG
    rcases hc G hG with rfl | hl
    · rw [if_pos rfl]
    · by_cases h0 : G = (0, 0, 0)
      · rw [if_pos h0]
      · rw [if_neg h0, if_pos hl]
  have hkeys : (mapHoppingsPositiveG sz t).keys = t.keys := by
    show (t.keys.map _).dedup = t.keys
    rw [List.map_congr_left hrep]
    rw [show (t.keys.map fun a => a) = t.keys from List.map_id' t.keys]
    rw [List.dedup_eq_self.mpr hnodup]
  refine ⟨fun G hG => by rwa [hkeys] at hG, fun G hG => by rwa [hkeys], fun G hG => ?_⟩
  rw [hkeys] at hG
  show Mat.Eq (if G = (0, 0, 0) then t.val G else _) (t.val G)
  by_cases h0 : G = (0, 0, 0)
  · rw [if_pos h0]
    exact matEqRefl _
  · rw [if_neg h0]
    have hl : LeadPos G := (hc G hG).resolve_left h0
    have hmem : G ∈ t.keys := hG
    have hnotneg : negG G ∉ t.keys := by
      intro hneg
      rcases hc (negG G) hneg with hz | hln
      · exact h0 (negG_eq_zero_iff.mp hz)
      · exact (leadPos_neg h0).mp hln hl
    refine ⟨((hshape G hG).1).symm, ((hshape G hG).2).symm, fun i hi j hj => ?_⟩
    dsimp only
    rw [if_pos hmem, if_neg hnotneg]
    exact CQ.add_zero' _

lemma solve3_id (v : V3) : solve3 idM3 v = v := by
  obtain ⟨a, b, c⟩ := v
  simp only [solve3, det3, setCol0, setCol1, setCol2, idM3]
  norm_num

lemma truncQ_intCast (z : ℤ) : truncQ (z : ℚ) = z := by
  unfold truncQ
  by_cases h : 0 ≤ ((z : ℚ))
  · rw [if_pos h, Int.floor_intCast]
  · rw [if_neg h, show -((z : ℚ)) = (((-z : ℤ)) : ℚ) by push_cast; ring,
      Int.floor_intCast]
    omega

lemma keyMap_id (G : GVec) : truncV (solve3 idM3 (gToV G)) = G := by
  obtain ⟨a, b, c⟩ := G
  rw [solve3_id]
  unfold truncV gToV
  simp [truncQ_intCast]

lemma matMul3_id (u : M3) : matMul3 u idM3 = u := by
  obtain ⟨⟨a, b, c⟩, ⟨d, e, f⟩, ⟨g, h, i⟩⟩ := u
  simp only [matMul3, idM3, col0, col1, col2, dotV]
  norm_num

lemma find?_self_of_mem {l : List GVec} {K : GVec} (hK : K ∈ l) :
    ∃ G', l.find? (fun G => decide (G = K)) = some G' ∧ G' = K := by
  have hs : (l.find? (fun G => decide (G = K))).isSome := by
    rw [List.find?_isSome]
    exact ⟨K, hK, by simp⟩
  obtain ⟨G', hG'⟩ := Option.isSome_iff_exists.mp hs
  refine ⟨G', hG', ?_⟩
  have hp := @List.find?_some GVec (fun G => decide (G = K)) G' l hG'
  simpa using hp

lemma truncV_gToV (G : GVec) : truncV (gToV G) = G := by
  obtain ⟨a, b, c⟩ := G
  unfold truncV gToV
  simp [truncQ_intCast]

lemma mapPositive_zero_key_mem {sz : ℕ} {t : HT}
    (h : (0, 0, 0) ∈ (mapHoppingsPositiveG sz t).keys) : (0, 0, 0) ∈ t.keys := by
  unfold mapHoppingsPositiveG at h
  simp only [List.mem_dedup, List.mem_map] at h
  obtain ⟨H, hH, hrep⟩ := h
  by_cases h0 : H = (0, 0, 0)
  · rwa [h0] at hH
  · rw [if_neg h0] at hrep
    by_cases hl : LeadPos H
    · rw [if_pos hl] at hrep
      exact absurd hrep h0
    · rw [if_neg hl] at hrep
      exact absurd (negG_eq_zero_iff.mp hrep) h0

/-- Re-entering `__init__` with `contains_cc=False` on a table that has the
model's own (canonical) keys and values returns a model equal to the
original, provided the key list is nonempty (so the size can be inferred). -/
lemma mkModel_cc_false_ok_equiv {t : HT} {m : Model}
    (hv : m.Valid)
    (hkeys : t.keys = m.hoppings.keys)
    (hval : ∀ K ∈ m.hoppings.keys, t.val K = m.hoppings.val K)
    (hne : m.hoppings.keys ≠ []) :
    okEquiv (mkModel t none m.occ (some m.pos) m.uc false ccTolDefault) m := by
  obtain ⟨hlen, hincell, hnodup, hcanon, hnopair, hshape⟩ := hv
  have hK0 : m.hoppings.keys.headD (0, 0, 0) ∈ m.hoppings.keys := by
    cases hk : m.hoppings.keys with
    | nil => exact absurd hk hne
    | cons a l => simp [hk]
  have hinfer : inferSize t none = m.size := by
    unfold inferSize
    rw [hkeys, hval _ hK0]
    exact (hshape _ hK0).1
  have hposok : PosArgOK t none (some m.pos) := by
    refine ⟨?_, hincell⟩
    rw [hinfer, hlen]
  have hne' : ¬(t.keys.isEmpty = true ∧ (none : Option ℕ).isNone = true) := by
    rintro ⟨h1, _⟩
    rw [List.isEmpty_iff, hkeys] at h1
    exact hne h1
  rw [mkModel_cc_false_eq hposok hne']
  have htShape : ∀ G ∈ t.keys, (t.val G).rows = inferSize t none ∧
      (t.val G).cols = inferSize t none := by
    intro G hG
    rw [hkeys] at hG
    rw [hval G hG, hinfer]
    exact hshape G hG
  have hshape' : ∀ G ∈ (mapHoppingsPositiveG (inferSize t none) t).keys,
      ((mapHoppingsPositiveG (inferSize t none) t).val G).rows = inferSize t none ∧
      ((mapHoppingsPositiveG (inferSize t none) t).val G).cols = inferSize t none := by
    intro G hG
    show (if G = (0, 0, 0) then t.val G else _).rows = _ ∧
      (if G = (0, 0, 0) then t.val G else _).cols = _
    by_cases h0 : G = (0, 0, 0)
    · rw [if_pos h0]
      subst h0
      exact htShape _ (mapPositive_zero_key_mem hG)
    · rw [if_neg h0]
      exact ⟨rfl, rfl⟩
  rw [if_pos hshape']
  show Model.Equiv _ m
  refine ⟨hinfer, rfl, rfl, rfl, ?_⟩
  have hEqv1 : HT.Equiv (mapHoppingsPositiveG (inferSize t none) t) t :=
    mapPositive_canonical_equiv (by rwa [hkeys]) (by rw [hkeys]; exact hcanon) htShape
  have hEqv2 : HT.Equiv t m.hoppings := by
    refine ⟨fun G hG => by rwa [hkeys] at hG, fun G hG => by rwa [hkeys], fun G hG => ?_⟩
    rw [hkeys] at hG
    rw [hval G hG]
    exact matEqRefl _
  exact htEquivTrans hEqv1 hEqv2

/-- C9, counterexample to the claim as stated: on the valid empty-table model
`change_uc(identity)` returns no model at all — the result is constructed
without an explicit size, so `__init__` raises the empty-hoppings
`ValueError` — rather than a model equal to the original. -/
theorem c9_changeUc_empty_cex :
    c9empty.Valid ∧ det3 idM3 = 1 ∧
    errOf (changeUc c9empty idM3) = some .sizeMissing :=
  ⟨by decide, by decide, by decide⟩

/-- C9 (amended: the identity round trip additionally needs a nonempty
hopping table, as forced by `c9_changeUc_empty_cex`): `change_uc` rejects
every matrix of determinant ≠ 1 with the determinant error, and on every
valid model with at least one hopping key, `change_uc(identity)` returns a
model equal to the original in `size`, `occ`, `pos`, `uc` and hopping
table. -/
theorem c9_changeUc_identity :
    (∀ (m : Model) (M : M3), det3 M ≠ 1 → changeUc m M = .error .detNotOne) ∧
    (∀ m : Model, m.Valid → m.hoppings.keys ≠ [] → okEquiv (changeUc m idM3) m) := by
  constructor
  · intro m M hdet
    unfold changeUc
    rw [if_pos hdet]
  · intro m hv hne
    have hnodup : m.hoppings.keys.Nodup := hv.2.2.1
    unfold changeUc
    rw [if_neg (show ¬(det3 idM3 ≠ 1) by decide)]
    dsimp only
    simp only [solve3_id, truncV_gToV, List.map_id', Option.map_id', matMul3_id]
    rw [List.dedup_eq_self.mpr hnodup]
    refine mkModel_cc_false_ok_equiv hv rfl ?_ hne
    intro K hK
    obtain ⟨G', hfind, rfl⟩ := find?_self_of_mem (List.mem_reverse.mpr hK)
    dsimp only
    rw [hfind]

theorem c9_changeUc_identity_witness :
    changeUc c9model c9badUc = .error .detNotOne ∧
    okEquiv (changeUc c9model idM3) c9model :=
  ⟨c9_changeUc_identity.1 c9model c9badUc (by decide),
   c9_changeUc_identity.2 c9model (by decide) (by decide)⟩

lemma negG_eq_self_iff {G : GVec} : negG G = G ↔ G = (0, 0, 0) := by
  obtain ⟨a, b, c⟩ := G
  simp only [negG, Prod.ext_iff]
  omega

lemma expand_mem_of_mem {t : HT} {K : GVec} (h : K ∈ t.keys) :
    K ∈ (expandTable t).keys := by
  unfold expandTable
  simp only [List.mem_flatMap]
  refine ⟨K, h, ?_⟩
  by_cases h0 : K = (0, 0, 0)
  · rw [if_pos h0]
    exact List.mem_singleton_self K
  · rw [if_neg h0]
    exact List.mem_cons_self K _

lemma expand_mem_neg {t : HT} {K : GVec} (h : K ∈ t.keys) (h0 : K ≠ (0, 0, 0)) :
    negG K ∈ (expandTable t).keys := by
  unfold expandTable
  simp only [List.mem_flatMap]
  exact ⟨K, h, by rw [if_neg h0]; exact List.mem_cons_of_mem _ (List.mem_singleton_self _)⟩

lemma noNegPair_not_mem {m : Model} (hv : m.Valid) {K : GVec}
    (hK : K ∈ m.hoppings.keys) (h0 : K ≠ (0, 0, 0)) :
    negG K ∉ m.hoppings.keys := by
  intro hneg
  have := hv.2.2.2.2.1 K hK (negG K) hneg rfl
  exact h0 (negG_eq_self_iff.mp this)

lemma expand_mem_cases {m : Model} (hv : m.Valid) {K : GVec}
    (h : K ∈ (expandTable m.hoppings).keys) :
    K ∈ m.hoppings.keys ∨
    (K ∉ m.hoppings.keys ∧ negG K ∈ m.hoppings.keys ∧ negG K ≠ (0, 0, 0) ∧
      K ≠ (0, 0, 0)) := by
  unfold expandTable at h
  simp only [List.mem_flatMap] at h
  obtain ⟨G, hG, hK⟩ := h
  by_cases h0 : G = (0, 0, 0)
  · rw [if_pos h0] at hK
    rw [List.mem_singleton] at hK
    subst hK
    exact Or.inl hG
  · rw [if_neg h0] at hK
    rcases List.mem_cons.mp hK with rfl | hK2
    · exact Or.inl hG
    · rw [List.mem_singleton] at hK2
      subst hK2
      refine Or.inr ⟨noNegPair_not_mem hv hG h0, by rwa [negG_negG], by rwa [negG_negG],
        fun hz => h0 (negG_eq_zero_iff.mp hz)⟩

lemma expand_val_of_mem {t : HT} {K : GVec} (h : K ∈ t.keys) (h0 : K ≠ (0, 0, 0)) :
    (expandTable t).val K = t.val K := by
  unfold expandTable
  dsimp only
  rw [if_pos h, if_neg h0]

lemma expand_val_zero {t : HT} (h : (0, 0, 0) ∈ t.keys) :
    (expandTable t).val (0, 0, 0) =
      Mat.add (t.val (0, 0, 0)) ((t.val (0, 0, 0)).ctrans) := by
  unfold expandTable
  dsimp only
  rw [if_pos h, if_pos rfl]

lemma expand_val_partner {t : HT} {K : GVec} (h : K ∉ t.keys) :
    (expandTable t).val K = (t.val (negG K)).ctrans := by
  unfold expandTable
  dsimp only
  rw [if_neg h]

lemma sum_zeros {α : Type} (l : List α) (f : α → ℚ) (h : ∀ x ∈ l, f x = 0) :
    (l.map f).sum = 0 := by
  induction l with
  | nil => simp
  | cons a tl ih =>
    rw [List.map_cons, List.sum_cons, h a (List.mem_cons_self a tl),
      ih (fun x hx => h x (List.mem_cons_of_mem a hx))]
    simp

lemma frobNormSq_zero {A : Mat CQ} (h : ∀ i j, A.entry i j = 0) :
    A.frobNormSq = 0 := by
  unfold Mat.frobNormSq
  apply sum_zeros
  intro i _
  apply sum_zeros
  intro j _
  rw [h i j]
  simp [CQ.normSq]

lemma normGt_false_of_zero {A : Mat CQ} (h : ∀ i j, A.entry i j = 0) :
    ¬ NormGt A ccTolDefault := by
  rw [NormGt, frobNormSq_zero h]
  rintro (h1 | h2)
  · exact absurd h1 (by decide)
  · nlinarith [mul_self_nonneg ccTolDefault]

lemma expand_cc_entries {m : Model} (hv : m.Valid) {K : GVec}
    (hK : K ∈ (expandTable m.hoppings).keys) :
    ∀ i j, (Mat.sub ((expandTable m.hoppings).val K)
      (((expandTable m.hoppings).val (negG K)).ctrans)).entry i j = 0 := by
  intro i j
  rcases expand_mem_cases hv hK with hin | ⟨hnin, hnegIn, hneg0, hK0⟩
  · by_cases h0 : K = (0, 0, 0)
    · subst h0
      rw [negG_zero, expand_val_zero hin]
      simp only [Mat.sub, Mat.add, Mat.ctrans]
      rw [CQ.ext_iff]
      constructor <;> simp <;> ring
    · have hneg : negG K ∉ m.hoppings.keys := noNegPair_not_mem hv hin h0
      rw [expand_val_of_mem hin h0, expand_val_partner hneg, negG_negG]
      simp only [Mat.sub, Mat.ctrans]
      rw [CQ.ext_iff]
      constructor <;> simp
  · rw [expand_val_partner hnin, expand_val_of_mem hnegIn hneg0]
    simp only [Mat.sub, Mat.ctrans]
    rw [CQ.ext_iff]
    constructor <;> simp

lemma expand_ccCheck_ok {m : Model} (hv : m.Valid) :
    ccCheck (expandTable m.hoppings) ccTolDefault (expandTable m.hoppings).keys =
      .ok () := by
  apply ccCheck_ok
  intro G hG
  refine ⟨?_, normGt_false_of_zero (fun i j => expand_cc_entries hv hG i j)⟩
  rcases expand_mem_cases hv hG with hin | ⟨hnin, hnegIn, hneg0, hG0⟩
  · by_cases h0 : G = (0, 0, 0)
    · subst h0
      rw [negG_zero]
      exact expand_mem_of_mem hin
    · exact expand_mem_neg hin h0
  · exact expand_mem_of_mem hnegIn

lemma reduce_expand_equiv {m : Model} (hv : m.Valid)
    (hherm : (0, 0, 0) ∈ m.hoppings.keys →
      Mat.Eq ((m.hoppings.val (0, 0, 0)).ctrans) (m.hoppings.val (0, 0, 0)))
    {t2 : HT} (hred : reduceHoppings (expandTable m.hoppings) ccTolDefault = .ok t2) :
    HT.Equiv t2 m.hoppings ∧
    ∀ G ∈ t2.keys, (t2.val G).rows = m.size ∧ (t2.val G).cols = m.size := by
  unfold reduceHoppings at hred
  rw [expand_ccCheck_ok hv] at hred
  injection hred with hred
  subst hred
  have hkeymem : ∀ K, K ∈ ((expandTable m.hoppings).keys.filter
      (fun G => decide (G = (0, 0, 0) ∨ LeadPos G))) ↔ K ∈ m.hoppings.keys := by
    intro K
    rw [List.mem_filter]
    constructor
    · rintro ⟨hKE, hpred⟩
      have hpred' := of_decide_eq_true hpred
      rcases expand_mem_cases hv hKE with hin | ⟨hnin, hnegIn, hneg0, hK0⟩
      · exact hin
      · exfalso
        rcases hpred' with rfl | hlp
        · exact hK0 rfl
        · rcases hv.2.2.2.1 (negG K) hnegIn with hz | hlneg
          · exact hneg0 hz
          · exact (leadPos_neg hK0).mp hlneg hlp
    · intro hin
      exact ⟨expand_mem_of_mem hin, decide_eq_true (hv.2.2.2.1 K hin)⟩
  have hval : ∀ K ∈ m.hoppings.keys, Mat.Eq
      (if K = (0, 0, 0) then Mat.smulQ (1/2) ((expandTable m.hoppings).val K)
       else (expandTable m.hoppings).val K) (m.hoppings.val K) := by
    intro K hin
    by_cases h0 : K = (0, 0, 0)
    · subst h0
      rw [if_pos rfl, expand_val_zero hin]
      have hsq := hv.2.2.2.2.2 _ hin
      have hhe := hherm hin
      refine ⟨rfl, rfl, fun i hi j hj => ?_⟩
      have hi0 : i < (m.hoppings.val (0, 0, 0)).rows := hi
      have hj0 : j < (m.hoppings.val (0, 0, 0)).cols := hj
      have hi' : i < (m.hoppings.val (0, 0, 0)).cols := by
        rw [hsq.2, ← hsq.1]
        exact hi0
      have hj' : j < (m.hoppings.val (0, 0, 0)).rows := by
        rw [hsq.1, ← hsq.2]
        exact hj0
      have hconj : ((m.hoppings.val (0, 0, 0)).entry j i).conj =
          (m.hoppings.val (0, 0, 0)).entry i j := hhe.2.2 i hi' j hj'
      show CQ.ofQ (1/2) * ((m.hoppings.val (0, 0, 0)).entry i j +
        ((m.hoppings.val (0, 0, 0)).entry j i).conj) = (m.hoppings.val (0, 0, 0)).entry i j
      rw [hconj, CQ.ext_iff]
      constructor
      · simp [CQ.ofQ]
        ring
      · simp [CQ.ofQ]
        ring
    · rw [if_neg h0, expand_val_of_mem hin h0]
      exact matEqRefl _
  have hshap : ∀ K ∈ m.hoppings.keys,
      (if K = (0, 0, 0) then Mat.smulQ (1/2) ((expandTable m.hoppings).val K)
       else (expandTable m.hoppings).val K).rows = m.size ∧
      (if K = (0, 0, 0) then Mat.smulQ (1/2) ((expandTable m.hoppings).val K)
       else (expandTable m.hoppings).val K).cols = m.size := by
    intro K hin
    by_cases h0 : K = (0, 0, 0)
    · subst h0
      rw [if_pos rfl, expand_val_zero hin]
      exact hv.2.2.2.2.2 _ hin
    · rw [if_neg h0, expand_val_of_mem hin h0]
      exact hv.2.2.2.2.2 _ hin
  refine ⟨⟨fun G hG => (hkeymem G).mp hG, fun G hG => (hkeymem G).mpr hG,
    fun G hG => hval G ((hkeymem G).mp hG)⟩,
    fun G hG => hshap G ((hkeymem G).mp hG)⟩

/-- C7, counterexample to the claim as stated: for the valid model storing
`[[i]]` at `(0,0,0)`, the expanded table holds `[[i]] + [[i]]^† = [[0]]`,
which passes the Hermiticity check, but the re-reduced table stores
`0.5·[[0]] = [[0]] ≠ [[i]]`: the round trip does not reproduce the canonical
table. -/
theorem c7_roundtrip_cex : c7cexM.Valid ∧ ¬ reconKeeps c7cexM := by
  constructor
  · decide
  · decide

/-- C7 (amended: the round trip reproduces the table exactly whenever the
stored `(0,0,0)` block is exactly Hermitian — as forced by
`c7_roundtrip_cex`; for keys `G ≠ (0,0,0)` the matrices are always
reproduced): on every valid model whose on-site block is Hermitian,
reconstruction from the expanded table with `contains_cc=True` yields the
identical canonical hopping table. -/
theorem c7_expand_roundtrip (m : Model) (hv : m.Valid)
    (hherm : (0, 0, 0) ∈ m.hoppings.keys →
      Mat.Eq ((m.hoppings.val (0, 0, 0)).ctrans) (m.hoppings.val (0, 0, 0))) :
    reconKeeps m := by
  unfold reconKeeps
  have hpos : PosArgOK (expandTable m.hoppings) (some m.size) (some m.pos) :=
    ⟨hv.1, hv.2.1⟩
  have hne : ¬((expandTable m.hoppings).keys.isEmpty = true ∧
      (some m.size).isNone = true) := by
    rintro ⟨-, h2⟩
    simp at h2
  rw [mkModel_cc_true_eq hpos hne]
  cases hred : reduceHoppings (expandTable m.hoppings) ccTolDefault with
  | error e =>
    unfold reduceHoppings at hred
    rw [expand_ccCheck_ok hv] at hred
    cases hred
  | ok t2 =>
    obtain ⟨hEqv, hSh⟩ := reduce_expand_equiv hv hherm hred
    dsimp only
    simp only [inferSize]
    rw [if_pos (fun G hG => hSh G hG)]
    exact hEqv

theorem c7_expand_roundtrip_witness : reconKeeps c7wit :=
  c7_expand_roundtrip c7wit (by decide) (fun _ => by decide)
